import Mathlib

/-!
# Verification of the SSTV-MEL repository against its specification

The repository ships ad-hoc image-comparison scripts (`analyze_freq.py`,
`scripts/compare_images.py`, `scripts/compare_aligned.py`, ...) around an SSTV
decoder that the specification describes in detail but that is not present in
the source tree.  This development embeds, on one hand, the arithmetic of the
scripts that are present (linear rescale, clipping, shift-search loops, shape
alignment) and, on the other hand, the decoder pipeline modelled from the
specification (frequency-to-intensity mapping, line encoding and decoding,
sync detection, frame finalization, session error policy), and proves the
properties claimed about them.

Conventions: machine floats are modelled as rationals (`ℚ`), pixel intensities
as integers (`ℤ`), frequency signals as lists of rationals indexed by sample
position.
-/

namespace SSTV

/-- Completeness marker of a decoded scan line, from the spec's
`{Complete, Partial, Missing}` enumeration (`Partial` is rendered here as
`part` for lexical reasons). -/
inductive Completeness where
  | complete : Completeness
  | part : Completeness
  | missing : Completeness
deriving DecidableEq, Repr

/-- Clamp an integer intensity into `[0, 255]`, the `clamp(·, 0, 255)` of the
spec and the `np.clip(·, 0, 255)` of the scripts, on `ℤ`. -/
def clampI (z : ℤ) : ℤ := min 255 (max 0 z)

/-- Modelled from the spec: the Line Decoder's frequency-to-intensity mapping
`intensity = clamp(round((frequency_hz - black_frequency_hz) /
(white_frequency_hz - black_frequency_hz) * 255), 0, 255)` (§4.4).  The
decoder itself is missing from the repository; `src/analyze_freq.py` restates
the same linear map in its comment block. -/
def intensity (black white f : ℚ) : ℤ :=
  clampI (round ((f - black) / (white - black) * 255))

/-- Modelled from the spec: ITU-R BT.601 red component
`R = Y + 1.402*(Cr-128)`, clamped to `[0,255]` (§4.4 color model conversion);
the conversion code is not in the repository. -/
def bt601R (y cr : ℚ) : ℤ := clampI (round (y + 1.402 * (cr - 128)))

/-- Modelled from the spec: ITU-R BT.601 green component
`G = Y - 0.344*(Cb-128) - 0.714*(Cr-128)`, clamped to `[0,255]`. -/
def bt601G (y cr cb : ℚ) : ℤ :=
  clampI (round (y - 0.344 * (cb - 128) - 0.714 * (cr - 128)))

/-- Modelled from the spec: ITU-R BT.601 blue component
`B = Y + 1.772*(Cb-128)`, clamped to `[0,255]`. -/
def bt601B (y cb : ℚ) : ℤ := clampI (round (y + 1.772 * (cb - 128)))

/-! ## The linear rescale of `src/analyze_freq.py` (lines 89-96)

`dec_min = dec_arr.min()`, `dec_max = dec_arr.max()` (likewise for the
expected image), then
`corrected = (dec_arr - dec_min) * (exp_max - exp_min) / (dec_max - dec_min)
+ exp_min`, followed by `np.clip(corrected, 0, 255)`.  Arrays are modelled as
lists of rationals (the flattened pixel data; numpy's `min`/`max` range over
all elements). -/

/-- Minimum of a list of rationals, `0` on the empty list (numpy's `.min()`
is only ever applied to nonempty image arrays). -/
def listMin : List ℚ → ℚ
  | [] => 0
  | [a] => a
  | a :: b :: t => min a (listMin (b :: t))

/-- Maximum of a list of rationals, `0` on the empty list. -/
def listMax : List ℚ → ℚ
  | [] => 0
  | [a] => a
  | a :: b :: t => max a (listMax (b :: t))

/-- The per-element linear rescale of `analyze_freq.py` line 95:
`(x - dec_min) * (exp_max - exp_min) / (dec_max - dec_min) + exp_min`. -/
def rescalePx (dmin dmax emin emax x : ℚ) : ℚ :=
  (x - dmin) * (emax - emin) / (dmax - dmin) + emin

/-- `np.clip(x, 0, 255)` on rationals. -/
def clip255 (x : ℚ) : ℚ := min 255 (max 0 x)

/-- The `corrected` array of `analyze_freq.py` lines 95-96: rescale every
element of the decoded array to the expected array's range, then clip. -/
def corrected (decArr expArr : List ℚ) : List ℚ :=
  decArr.map fun x =>
    clip255 (rescalePx (listMin decArr) (listMax decArr)
      (listMin expArr) (listMax expArr) x)

lemma listMin_le_of_mem : ∀ {l : List ℚ} {a : ℚ}, a ∈ l → listMin l ≤ a := by
  intro l
  induction l with
  | nil => intro a ha; cases ha
  | cons x t ih =>
    intro a ha
    cases t with
    | nil =>
      rcases List.mem_singleton.mp ha with rfl
      exact le_of_eq rfl
    | cons y s =>
      rcases List.mem_cons.mp ha with rfl | ha'
      · exact min_le_left _ _
      · exact le_trans (min_le_right _ _) (ih ha')

lemma le_listMax_of_mem : ∀ {l : List ℚ} {a : ℚ}, a ∈ l → a ≤ listMax l := by
  intro l
  induction l with
  | nil => intro a ha; cases ha
  | cons x t ih =>
    intro a ha
    cases t with
    | nil =>
      rcases List.mem_singleton.mp ha with rfl
      exact le_of_eq rfl
    | cons y s =>
      rcases List.mem_cons.mp ha with rfl | ha'
      · exact le_max_left _ _
      · exact le_trans (ih ha') (le_max_right _ _)

lemma clampI_mem_Icc (z : ℤ) : 0 ≤ clampI z ∧ clampI z ≤ 255 := by
  unfold clampI
  constructor
  · exact le_min (by norm_num) (le_max_left 0 z)
  · exact min_le_left _ _

lemma clampI_of_mem (z : ℤ) (h0 : 0 ≤ z) (h1 : z ≤ 255) : clampI z = z := by
  unfold clampI
  rw [max_eq_right h0, min_eq_right h1]

lemma clip255_mem_Icc (x : ℚ) : 0 ≤ clip255 x ∧ clip255 x ≤ 255 := by
  unfold clip255
  constructor
  · exact le_min (by norm_num) (le_max_left 0 x)
  · exact min_le_left _ _

lemma round_mono_q {a b : ℚ} (h : a ≤ b) : round a ≤ round b := by
  rw [round_eq, round_eq]
  exact Int.floor_le_floor (by linarith)

end SSTV

/-! ## The horizontal-shift search of the comparison scripts

`scripts/compare_images.py` lines 47-61 and `scripts/compare_aligned.py`
lines 48-62 run the identical loop: for `shift in range(-100, 101)` the
overlapping row segments are formed; when the overlap exceeds 100 pixels
(`len(d) > 100`, i.e. `W - |shift| > 100` for rows of width `W`),
`np.corrcoef` is evaluated and `(best_shift, best_corr)`, initialised to
`(0, -1)`, is replaced exactly when the correlation is strictly greater.
`np.corrcoef` is an external library call, abstracted as a parameter
`corrf : ℤ → ℚ`. -/

namespace SSTV

/-- Eligibility of a shift: the overlapping segment of two width-`W` rows at
shift `s` has `W - |s|` pixels, and the loop body runs only when that exceeds
100 (`if len(d) > 100`). -/
def eligShift (W : ℕ) (s : ℤ) : Bool := decide ((100 : ℤ) < (W : ℤ) - |s|)

/-- One iteration of the `best_shift` / `best_corr` loop: replace the state
only on a strictly greater correlation at an eligible shift. -/
def bestStep (corrf : ℤ → ℚ) (W : ℕ) (st : ℤ × ℚ) (s : ℤ) : ℤ × ℚ :=
  if eligShift W s = true ∧ st.2 < corrf s then (s, corrf s) else st

/-- The shifts scanned by the loop: `range(-100, 101)` in ascending order. -/
def shiftRange : List ℤ := (List.range 201).map fun (i : ℕ) => (i : ℤ) - 100

/-- The whole loop: fold `bestStep` over the shifts starting from
`(best_shift, best_corr) = (0, -1)`. -/
def bestShiftLoop (corrf : ℤ → ℚ) (W : ℕ) : ℤ × ℚ :=
  shiftRange.foldl (bestStep corrf W) (0, -1)

lemma mem_shiftRange_iff {s : ℤ} : s ∈ shiftRange ↔ -100 ≤ s ∧ s ≤ 100 := by
  unfold shiftRange
  rw [List.mem_map]
  constructor
  · rintro ⟨i, hi, rfl⟩
    rw [List.mem_range] at hi
    omega
  · rintro ⟨h1, h2⟩
    exact ⟨(s + 100).toNat, List.mem_range.mpr (by omega), by omega⟩

/-- The fold invariant of the best-shift loop: along a strictly ascending
list of candidate shifts the state only improves, the final correlation
dominates every eligible candidate, a state strictly above the `-1` sentinel
records an eligible shift with its own correlation, the state either stays
or strictly improves to a scanned shift, and every eligible candidate
strictly to the left of the final shift has strictly smaller correlation. -/
lemma bestStep_foldl_spec (corrf : ℤ → ℚ) (W : ℕ) :
    ∀ (l : List ℤ) (st : ℤ × ℚ),
    List.Pairwise (· < ·) l →
    (-1 < st.2 → eligShift W st.1 = true ∧ corrf st.1 = st.2) →
    (-1 < st.2 → ∀ x ∈ l, st.1 < x) →
    st.2 ≤ (l.foldl (bestStep corrf W) st).2 ∧
    (∀ s ∈ l, eligShift W s = true →
      corrf s ≤ (l.foldl (bestStep corrf W) st).2) ∧
    (-1 < (l.foldl (bestStep corrf W) st).2 →
      eligShift W (l.foldl (bestStep corrf W) st).1 = true ∧
      corrf (l.foldl (bestStep corrf W) st).1 =
        (l.foldl (bestStep corrf W) st).2) ∧
    (l.foldl (bestStep corrf W) st = st ∨
      (st.2 < (l.foldl (bestStep corrf W) st).2 ∧
       (l.foldl (bestStep corrf W) st).1 ∈ l)) ∧
    (∀ s ∈ l, eligShift W s = true → s < (l.foldl (bestStep corrf W) st).1 →
      st.2 < (l.foldl (bestStep corrf W) st).2 →
      corrf s < (l.foldl (bestStep corrf W) st).2) := by
  intro l
  induction l with
  | nil =>
    intro st _ h2 _
    refine ⟨le_refl _, ?_, h2, Or.inl rfl, ?_⟩
    · intro s hs; cases hs
    · intro s hs; cases hs
  | cons a t ih =>
    intro st hpw h2 h3
    have hpw' := (List.pairwise_cons.mp hpw).2
    have hat := (List.pairwise_cons.mp hpw).1
    by_cases hc : eligShift W a = true ∧ st.2 < corrf a
    · -- the state is updated at `a`
      have hstep : bestStep corrf W st a = (a, corrf a) := by
        unfold bestStep; rw [if_pos hc]
      have ih' := ih (a, corrf a) hpw'
        (fun _ => ⟨hc.1, rfl⟩) (fun _ => hat)
      set r := t.foldl (bestStep corrf W) (a, corrf a) with hr
      have hfold : (a :: t).foldl (bestStep corrf W) st = r := by
        simp [List.foldl_cons, hstep, hr]
      rw [hfold]
      obtain ⟨i1, i2, i3, i4, i5⟩ := ih'
      refine ⟨le_trans hc.2.le i1, ?_, i3, ?_, ?_⟩
      · intro s hs he
        rcases List.mem_cons.mp hs with rfl | hs'
        · exact i1
        · exact i2 s hs' he
      · rcases i4 with h | ⟨hlt, hmem⟩
        · refine Or.inr ⟨?_, ?_⟩
          · rw [h]; exact hc.2
          · rw [h]; exact List.mem_cons_self a t
        · exact Or.inr ⟨lt_trans hc.2 hlt, List.mem_cons_of_mem a hmem⟩
      · intro s hs he hsr _
        rcases List.mem_cons.mp hs with rfl | hs'
        · rcases i4 with h | ⟨hlt, _⟩
          · rw [h] at hsr; exact absurd hsr (lt_irrefl s)
          · exact hlt
        · rcases i4 with h | ⟨hlt, _⟩
          · rw [h] at hsr
            exact absurd (lt_trans (hat s hs') hsr) (lt_irrefl a)
          · exact i5 s hs' he hsr hlt
    · -- the state is unchanged at `a`
      have hstep : bestStep corrf W st a = st := by
        unfold bestStep; rw [if_neg hc]
      have h3' : -1 < st.2 → ∀ x ∈ t, st.1 < x := by
        intro hpos x hx; exact h3 hpos x (List.mem_cons_of_mem a hx)
      have ih' := ih st hpw' h2 h3'
      set r := t.foldl (bestStep corrf W) st with hr
      have hfold : (a :: t).foldl (bestStep corrf W) st = r := by
        simp [List.foldl_cons, hstep, hr]
      rw [hfold]
      obtain ⟨i1, i2, i3, i4, i5⟩ := ih'
      have hle_a : eligShift W a = true → corrf a ≤ st.2 := by
        intro he
        by_contra hgt
        exact hc ⟨he, lt_of_not_le hgt⟩
      refine ⟨i1, ?_, i3, ?_, ?_⟩
      · intro s hs he
        rcases List.mem_cons.mp hs with rfl | hs'
        · exact le_trans (hle_a he) i1
        · exact i2 s hs' he
      · rcases i4 with h | ⟨hlt, hmem⟩
        · exact Or.inl h
        · exact Or.inr ⟨hlt, List.mem_cons_of_mem a hmem⟩
      · intro s hs he hsr himp
        rcases List.mem_cons.mp hs with rfl | hs'
        · exact lt_of_le_of_lt (hle_a he) himp
        · exact i5 s hs' he hsr himp

lemma shiftRange_pairwise : List.Pairwise (· < ·) shiftRange := by
  unfold shiftRange
  rw [List.pairwise_map]
  exact (List.pairwise_lt_range 201).imp (by intro a b h; omega)

end SSTV

/-- **C8.** In the horizontal-shift search of the comparison scripts, when at
least one eligible shift has correlation above the `-1` sentinel, the
reported `best_shift` lies in `[-100, 100]`, `best_corr` is the correlation
of `best_shift` and dominates the correlation of every shift whose overlap
exceeds 100 pixels, and every eligible shift smaller than `best_shift` has a
strictly smaller correlation (the smallest shift attaining the maximum is
reported, because the best is replaced only on strictly greater
correlation). -/
theorem C8_best_shift_spec (corrf : ℤ → ℚ) (W : ℕ)
    (hex : ∃ s ∈ SSTV.shiftRange, SSTV.eligShift W s = true ∧ -1 < corrf s) :
    (-100 ≤ (SSTV.bestShiftLoop corrf W).1 ∧
      (SSTV.bestShiftLoop corrf W).1 ≤ 100) ∧
    SSTV.eligShift W (SSTV.bestShiftLoop corrf W).1 = true ∧
    corrf (SSTV.bestShiftLoop corrf W).1 = (SSTV.bestShiftLoop corrf W).2 ∧
    (∀ s ∈ SSTV.shiftRange, SSTV.eligShift W s = true →
      corrf s ≤ (SSTV.bestShiftLoop corrf W).2) ∧
    (∀ s ∈ SSTV.shiftRange, SSTV.eligShift W s = true →
      s < (SSTV.bestShiftLoop corrf W).1 →
      corrf s < (SSTV.bestShiftLoop corrf W).2) := by
  obtain ⟨s0, hs0, he0, hc0⟩ := hex
  have hspec := SSTV.bestStep_foldl_spec corrf W SSTV.shiftRange (0, -1)
    SSTV.shiftRange_pairwise
    (by intro h; exact absurd h (by norm_num))
    (by intro h; exact absurd h (by norm_num))
  obtain ⟨i1, i2, i3, i4, i5⟩ := hspec
  have hbig : -1 < (SSTV.bestShiftLoop corrf W).2 :=
    lt_of_lt_of_le hc0 (i2 s0 hs0 he0)
  have hbig' : ((0 : ℤ), (-1 : ℚ)).2 < (SSTV.bestShiftLoop corrf W).2 := hbig
  have hmem : (SSTV.bestShiftLoop corrf W).1 ∈ SSTV.shiftRange := by
    rcases i4 with h | ⟨_, hmem⟩
    · exfalso
      have h2' : (SSTV.bestShiftLoop corrf W).2 = -1 := congrArg Prod.snd h
      rw [h2'] at hbig; exact absurd hbig (lt_irrefl _)
    · exact hmem
  obtain ⟨hi3a, hi3b⟩ := i3 hbig
  refine ⟨SSTV.mem_shiftRange_iff.mp hmem, hi3a, hi3b, i2, ?_⟩
  intro s hs he hlt
  exact i5 s hs he hlt hbig'

/-- Witness for C8 with `W = 640` and the constant-zero correlation oracle. -/
theorem C8_best_shift_spec_witness :
    (-100 ≤ (SSTV.bestShiftLoop (fun _ => 0) 640).1 ∧
      (SSTV.bestShiftLoop (fun _ => 0) 640).1 ≤ 100) ∧
    SSTV.eligShift 640 (SSTV.bestShiftLoop (fun _ => 0) 640).1 = true ∧
    (fun _ => (0 : ℚ)) (SSTV.bestShiftLoop (fun _ => 0) 640).1 =
      (SSTV.bestShiftLoop (fun _ => 0) 640).2 ∧
    (∀ s ∈ SSTV.shiftRange, SSTV.eligShift 640 s = true →
      (fun _ => (0 : ℚ)) s ≤ (SSTV.bestShiftLoop (fun _ => 0) 640).2) ∧
    (∀ s ∈ SSTV.shiftRange, SSTV.eligShift 640 s = true →
      s < (SSTV.bestShiftLoop (fun _ => 0) 640).1 →
      (fun _ => (0 : ℚ)) s < (SSTV.bestShiftLoop (fun _ => 0) 640).2) :=
  C8_best_shift_spec (fun _ => 0) 640
    ⟨0, by rw [SSTV.mem_shiftRange_iff]; norm_num,
      by unfold SSTV.eligShift; norm_num, by norm_num⟩

/-! ## Shape alignment in the comparison scripts

`scripts/compare_images.py` lines 22-39 and `scripts/compare_aligned.py`
lines 23-40: both images are converted to RGB arrays; when the shapes
differ, the expected image is resized (PIL LANCZOS) to the decoded image's
size; then `diff = np.abs(dec_arr - exp_arr)` is formed. -/

namespace SSTV

/-- An RGB image array: height, width, and rational pixel data indexed by
row, column and channel. -/
structure ImgQ where
  height : ℕ
  width : ℕ
  px : ℕ → ℕ → Fin 3 → ℚ

/-- PIL's `Image.resize(size, LANCZOS)`, an external library call: the
resampled pixel content is abstracted as the parameter `resample`, and the
resized image carries the requested target dimensions. -/
def resizeTo (resample : ImgQ → ℕ → ℕ → ℕ → ℕ → Fin 3 → ℚ)
    (img : ImgQ) (w h : ℕ) : ImgQ :=
  ⟨h, w, fun y x c => resample img w h y x c⟩

/-- `compare_images.py` lines 26-28: resize the expected array to the
decoded image's size exactly when the shapes differ. -/
def alignExpected (resample : ImgQ → ℕ → ℕ → ℕ → ℕ → Fin 3 → ℚ)
    (dec ex : ImgQ) : ImgQ :=
  if dec.height = ex.height ∧ dec.width = ex.width then ex
  else resizeTo resample ex dec.width dec.height

/-- `compare_images.py` line 36: `diff = np.abs(dec_arr - exp_arr)`, an
elementwise operation on equal-shaped arrays; the result carries the shape
of the (aligned) expected operand. -/
def diffArray (dec ex : ImgQ) : ImgQ :=
  ⟨ex.height, ex.width, fun y x c => |dec.px y x c - ex.px y x c|⟩

/-- The comparison pipeline of lines 22-39: align the expected array, then
difference; the decoded array flows through unchanged. -/
def comparePipeline (resample : ImgQ → ℕ → ℕ → ℕ → ℕ → Fin 3 → ℚ)
    (dec ex : ImgQ) : ImgQ × ImgQ :=
  (dec, diffArray dec (alignExpected resample dec ex))

end SSTV

/-- **C10.** In the comparison scripts, after the conditional resize the
expected array always has the decoded image's dimensions, hence for every
pair of input images the absolute-difference array has exactly the decoded
image's height and width, and the decoded array itself is left unchanged. -/
theorem C10_resize_shapes (resample : SSTV.ImgQ → ℕ → ℕ → ℕ → ℕ → Fin 3 → ℚ)
    (dec ex : SSTV.ImgQ) :
    (SSTV.alignExpected resample dec ex).height = dec.height ∧
    (SSTV.alignExpected resample dec ex).width = dec.width ∧
    (SSTV.comparePipeline resample dec ex).2.height = dec.height ∧
    (SSTV.comparePipeline resample dec ex).2.width = dec.width ∧
    (SSTV.comparePipeline resample dec ex).1 = dec := by
  unfold SSTV.comparePipeline SSTV.diffArray SSTV.alignExpected SSTV.resizeTo
  by_cases h : dec.height = ex.height ∧ dec.width = ex.width
  · rw [if_pos h]
    exact ⟨h.1.symm, h.2.symm, h.1.symm, h.2.symm, rfl⟩
  · rw [if_neg h]
    exact ⟨rfl, rfl, rfl, rfl, rfl⟩

/-- **C1.** For every mode with `black_frequency_hz < white_frequency_hz`,
the frequency-to-intensity mapping returns exactly `0` at
`black_frequency_hz` and exactly `255` at `white_frequency_hz`. -/
theorem C1_boundary_roundtrip (black white : ℚ) (h : black < white) :
    SSTV.intensity black white black = 0 ∧
    SSTV.intensity black white white = 255 := by
  have hne : white - black ≠ 0 := by linarith
  constructor
  · unfold SSTV.intensity
    have : (black - black) / (white - black) * 255 = (0 : ℚ) := by
      field_simp
    rw [this, round_zero]
    rfl
  · unfold SSTV.intensity
    have : (white - black) / (white - black) * 255 = (255 : ℚ) := by
      field_simp
    rw [this]
    have h255 : round (255 : ℚ) = 255 := by
      norm_num [round_eq]
    rw [h255]
    rfl

/-- Witness for C1 at the representative constants 1500 Hz / 2300 Hz. -/
theorem C1_boundary_roundtrip_witness :
    SSTV.intensity 1500 2300 1500 = 0 ∧ SSTV.intensity 1500 2300 2300 = 255 :=
  C1_boundary_roundtrip 1500 2300 (by norm_num)

/-- **C3.** For `f1 ≤ f2` both within `[black, white]` (and
`black < white`), the frequency-to-intensity mapping is monotone
non-decreasing: `intensity f1 ≤ intensity f2`. -/
theorem C3_intensity_monotone (black white f1 f2 : ℚ) (hbw : black < white)
    (h1 : black ≤ f1) (h2 : f2 ≤ white) (h12 : f1 ≤ f2) :
    SSTV.intensity black white f1 ≤ SSTV.intensity black white f2 := by
  unfold SSTV.intensity SSTV.clampI
  have hpos : (0 : ℚ) < white - black := by linarith
  have harg : (f1 - black) / (white - black) * 255 ≤
      (f2 - black) / (white - black) * 255 := by
    have : (f1 - black) / (white - black) ≤ (f2 - black) / (white - black) :=
      div_le_div_of_nonneg_right (by linarith) hpos.le
    nlinarith
  have hr := SSTV.round_mono_q harg
  exact min_le_min (le_refl _) (max_le_max (le_refl _) hr)

/-- Witness for C3 at 1500/2300 with frequencies 1700 ≤ 1900. -/
theorem C3_intensity_monotone_witness :
    SSTV.intensity 1500 2300 1700 ≤ SSTV.intensity 1500 2300 1900 :=
  C3_intensity_monotone 1500 2300 1700 1900 (by norm_num) (by norm_num)
    (by norm_num) (by norm_num)

/-- **C9.** The `analyze_freq.py` linear rescale: with at least two distinct
pixel values in the decoded array the divisor `dec_max - dec_min` is nonzero;
the rescale maps `dec_min` to `exp_min` and `dec_max` to `exp_max`; and after
`np.clip` every element of `corrected` lies in `[0, 255]`. -/
theorem C9_rescale_safe (decArr expArr : List ℚ) (a b : ℚ)
    (ha : a ∈ decArr) (hb : b ∈ decArr) (hab : a ≠ b) :
    SSTV.listMax decArr - SSTV.listMin decArr ≠ 0 ∧
    SSTV.rescalePx (SSTV.listMin decArr) (SSTV.listMax decArr)
      (SSTV.listMin expArr) (SSTV.listMax expArr) (SSTV.listMin decArr) =
      SSTV.listMin expArr ∧
    SSTV.rescalePx (SSTV.listMin decArr) (SSTV.listMax decArr)
      (SSTV.listMin expArr) (SSTV.listMax expArr) (SSTV.listMax decArr) =
      SSTV.listMax expArr ∧
    ∀ y ∈ SSTV.corrected decArr expArr, 0 ≤ y ∧ y ≤ 255 := by
  have hmin_a := SSTV.listMin_le_of_mem ha
  have hmin_b := SSTV.listMin_le_of_mem hb
  have hmax_a := SSTV.le_listMax_of_mem ha
  have hmax_b := SSTV.le_listMax_of_mem hb
  have hlt : SSTV.listMin decArr < SSTV.listMax decArr := by
    rcases lt_or_gt_of_ne hab with h | h
    · exact lt_of_le_of_lt hmin_a (lt_of_lt_of_le h hmax_b)
    · exact lt_of_le_of_lt hmin_b (lt_of_lt_of_le h hmax_a)
  have hne : SSTV.listMax decArr - SSTV.listMin decArr ≠ 0 := by linarith
  refine ⟨hne, ?_, ?_, ?_⟩
  · unfold SSTV.rescalePx
    field_simp
  · unfold SSTV.rescalePx
    field_simp
  · intro y hy
    unfold SSTV.corrected at hy
    rcases List.mem_map.mp hy with ⟨x, _, rfl⟩
    exact SSTV.clip255_mem_Icc _

/-- Witness for C9 on the concrete arrays `dec = [0, 10]`, `exp = [5, 7]`. -/
theorem C9_rescale_safe_witness :
    SSTV.listMax [(0 : ℚ), 10] - SSTV.listMin [(0 : ℚ), 10] ≠ 0 ∧
    SSTV.rescalePx (SSTV.listMin [(0 : ℚ), 10]) (SSTV.listMax [(0 : ℚ), 10])
      (SSTV.listMin [(5 : ℚ), 7]) (SSTV.listMax [(5 : ℚ), 7])
      (SSTV.listMin [(0 : ℚ), 10]) = SSTV.listMin [(5 : ℚ), 7] ∧
    SSTV.rescalePx (SSTV.listMin [(0 : ℚ), 10]) (SSTV.listMax [(0 : ℚ), 10])
      (SSTV.listMin [(5 : ℚ), 7]) (SSTV.listMax [(5 : ℚ), 7])
      (SSTV.listMax [(0 : ℚ), 10]) = SSTV.listMax [(5 : ℚ), 7] ∧
    ∀ y ∈ SSTV.corrected [(0 : ℚ), 10] [(5 : ℚ), 7], 0 ≤ y ∧ y ≤ 255 :=
  C9_rescale_safe [(0 : ℚ), 10] [(5 : ℚ), 7] 0 10 (by simp) (by simp)
    (by norm_num)

/-! ## The SSTV decoder modelled from the specification

The decoder — Sync Detector (§4.1), Mode Table (§4.2), Line Decoder (§4.3)
and Frame Assembler (§4.4) — is not in the repository's source tree; the
definitions below are modelled from the specification's words.  The signal is
the Frequency Sampler's output: a list of instantaneous frequency estimates
(Hz, as `ℚ`) at consecutive sample positions. -/

namespace SSTV

/-- Modelled from the spec (§3): `ChannelSpec` — where in a scan line a
channel's frequency sweep lives.  Channel ids are abstracted as naturals. -/
structure ChannelSpec where
  channelId : ℕ
  durationSamples : ℕ
  offsetWithinLineSamples : ℕ
deriving DecidableEq, Repr

/-- Modelled from the spec (§4.4): the color model of a mode family - YCrCb
or RGB-sequential. -/
inductive ColorModel where
  | ycrcb : ColorModel
  | rgbSequential : ColorModel
deriving DecidableEq, Repr

/-- Modelled from the spec (§3): `ModeDescriptor`, the immutable static
record of per-mode timing and frequency parameters. -/
structure ModeDescriptor where
  name : String
  lineDurationSamples : ℕ
  syncPulseDurationSamples : ℕ
  syncFrequencyHz : ℚ
  channelLayout : List ChannelSpec
  blackFrequencyHz : ℚ
  whiteFrequencyHz : ℚ
  colorModel : ColorModel

/-- Modelled from the spec (§3): a decoded `ScanLine` — line index, ordered
per-channel intensity sequences, and a completeness marker. -/
structure ScanLine where
  lineIndex : ℕ
  channelValues : List (List ℤ)
  completeness : Completeness
deriving DecidableEq, Repr

/-- The sub-window of `len` samples of the signal starting at `start`. -/
def sliceQ (sig : List ℚ) (start len : ℕ) : List ℚ := (sig.drop start).take len

/-- Arithmetic mean of a window of frequency samples (the spec's baseline
anti-aliasing step, §4.3). -/
def avgQ (l : List ℚ) : ℚ := l.sum / (l.length : ℚ)

/-- Modelled from the spec (§4.3): decode one pixel column from its sample
window; an empty window repeats the previous column's value (hold-last)
rather than failing. -/
def decodePixel (black white : ℚ) (prev : ℤ) (window : List ℚ) : ℤ :=
  match window with
  | [] => prev
  | _ => intensity black white (avgQ window)

/-- Walk the pixel columns of one channel window: `n` columns of `spp`
samples each starting at `start`, threading the hold-last value. -/
def decodeRowGo (black white : ℚ) (sig : List ℚ) (spp : ℕ) :
    ℕ → ℕ → ℤ → List ℤ
  | _, 0, _ => []
  | start, n + 1, prev =>
    let v := decodePixel black white prev (sliceQ sig start spp)
    v :: decodeRowGo black white sig spp (start + spp) n v

/-- Modelled from the spec (§4.3): decode a channel's row of `width` pixels;
the column width in samples is threaded in as `spp`. -/
def decodeRow (black white : ℚ) (sig : List ℚ) (start spp width : ℕ) :
    List ℤ :=
  decodeRowGo black white sig spp start width 0

/-- Modelled from the spec (§4.3): decode every channel of a line anchored
at `anchor`; the column width is `duration_samples / image_width`. -/
def decodeChannels (mode : ModeDescriptor) (width : ℕ) (sig : List ℚ)
    (anchor : ℕ) : List (List ℤ) :=
  mode.channelLayout.map fun cs =>
    decodeRow mode.blackFrequencyHz mode.whiteFrequencyHz sig
      (anchor + cs.offsetWithinLineSamples) (cs.durationSamples / width) width

/-- Number of samples actually present for a channel window. -/
def channelAvailable (sig : List ℚ) (anchor : ℕ) (cs : ChannelSpec) : ℕ :=
  (sliceQ sig (anchor + cs.offsetWithinLineSamples) cs.durationSamples).length

/-- Modelled from the spec (§4.3 failure handling): a line is `Partial`
(`InsufficientSamples`) when fewer than 50% of the expected samples are
present for some channel window, else `Complete`. -/
def lineCompleteness (mode : ModeDescriptor) (sig : List ℚ) (anchor : ℕ) :
    Completeness :=
  if mode.channelLayout.all
      (fun cs => cs.durationSamples ≤ 2 * channelAvailable sig anchor cs)
  then Completeness.complete else Completeness.part

/-- Decode the scan line anchored at `anchor` with line index `k`. -/
def decodeLineAt (mode : ModeDescriptor) (width : ℕ) (sig : List ℚ)
    (anchor k : ℕ) : ScanLine :=
  ⟨k, decodeChannels mode width sig anchor, lineCompleteness mode sig anchor⟩

/-- Modelled from the spec (§4.1, §4.4): a line whose sync pulse was not
found is marked `Missing`; its pixel positions carry the mid-gray
sentinel 128. -/
def missingLine (mode : ModeDescriptor) (width k : ℕ) : ScanLine :=
  ⟨k, mode.channelLayout.map fun _ => List.replicate width 128,
    Completeness.missing⟩

/-- Modelled from the spec (§4.1): matched-window sync test with a ±50 Hz
tolerance band around the mode's sync frequency. -/
def isSyncTone (mode : ModeDescriptor) (f : ℚ) : Bool :=
  decide (|f - mode.syncFrequencyHz| ≤ 50)

/-- Modelled from the spec (§4.1): scan the extended window (1.5x the
nominal line duration) from the current position for the earliest sample
matching the sync tone — "earliest sample crossing the threshold within the
expected window wins". -/
def syncSearchOffset (mode : ModeDescriptor) (sig : List ℚ) : Option ℕ :=
  (List.range (3 * mode.lineDurationSamples / 2)).find? fun j =>
    ((sig[j]?).any (isSyncTone mode))

/-- Modelled from the spec (§4.1 drift correction): a sync pulse observed
within half a line of the nominal boundary resynchronizes the line to the
observed position; a pulse half a line or more away (e.g. the next line's
own pulse) is not this line's sync, so the line is declared missing and
decoding continues at the next nominal boundary. -/
def acceptedSyncOffset (mode : ModeDescriptor) (sig : List ℚ) : Option ℕ :=
  match syncSearchOffset mode sig with
  | some j =>
    if 2 * j < mode.lineDurationSamples then some j else none
  | none => none

/-- Modelled from the spec (§4.1, §4.4): the per-line decode loop.  While a
full line of samples remains, find the line's sync pulse: if accepted, the
line is decoded at the observed anchor and the stream advances one line
from there; otherwise the line is `Missing` and the stream advances one
nominal line duration.  `fuel` bounds the number of lines (any value at
least the final line count gives the same result). -/
def decodeLinesGo (mode : ModeDescriptor) (width : ℕ) :
    ℕ → List ℚ → ℕ → List ScanLine
  | 0, _, _ => []
  | fuel + 1, sig, k =>
    if mode.lineDurationSamples ≤ sig.length then
      match acceptedSyncOffset mode sig with
      | some j =>
        decodeLineAt mode width sig j k ::
          decodeLinesGo mode width fuel
            (sig.drop (j + mode.lineDurationSamples)) (k + 1)
      | none =>
        missingLine mode width k ::
          decodeLinesGo mode width fuel
            (sig.drop mode.lineDurationSamples) (k + 1)
    else []

/-- Decode all scan lines of a signal (fuel `sig.length + 1` suffices since
every iteration consumes at least one full line of samples). -/
def decodeFrameLines (mode : ModeDescriptor) (width : ℕ) (sig : List ℚ) :
    List ScanLine :=
  decodeLinesGo mode width (sig.length + 1) sig 0

/-- Modelled from the spec (§4.3, inverted): the frequency carrying
intensity `v`, `black + v/255 * (white - black)`; encoding a raster through
the mode's frequency scheme uses this tone per pixel. -/
def pixFreq (black white : ℚ) (v : ℤ) : ℚ :=
  black + (v : ℚ) / 255 * (white - black)

/-- Encode one channel row: `spp` samples of the pixel's tone per column. -/
def encodeRow (black white : ℚ) (spp : ℕ) (row : List ℤ) : List ℚ :=
  (row.map fun v => List.replicate spp (pixFreq black white v)).flatten

/-- Encode one scan line: the sync pulse then every channel row in layout
order (the synthetic signal of the spec's round-trip property, §8). -/
def encodeLine (mode : ModeDescriptor) (spp : ℕ)
    (line : List (List ℤ)) : List ℚ :=
  List.replicate mode.syncPulseDurationSamples mode.syncFrequencyHz ++
    (line.map (encodeRow mode.blackFrequencyHz mode.whiteFrequencyHz spp)).flatten

/-- Encode a whole raster line by line. -/
def encodeSignal (mode : ModeDescriptor) (spp : ℕ)
    (raster : List (List (List ℤ))) : List ℚ :=
  (raster.map (encodeLine mode spp)).flatten

/-- A sequential mode with `nc` contiguous equal-length channels, the
common 1200 Hz sync tone, and column width `spp`. -/
def mkMode (nc width spp syncDur : ℕ) (b w : ℚ) : ModeDescriptor where
  name := "sequential"
  lineDurationSamples := syncDur + nc * (width * spp)
  syncPulseDurationSamples := syncDur
  syncFrequencyHz := 1200
  channelLayout := (List.range nc).map fun c =>
    ⟨c, width * spp, syncDur + c * (width * spp)⟩
  blackFrequencyHz := b
  whiteFrequencyHz := w
  colorModel := ColorModel.rgbSequential

/-- Well-formed raster: every line has `nc` channel rows of `width`
intensities each, all in `[0, 255]`. -/
def WfRaster (nc width : ℕ) (r : List (List (List ℤ))) : Prop :=
  ∀ line ∈ r, line.length = nc ∧
    ∀ row ∈ line, row.length = width ∧ ∀ v ∈ row, 0 ≤ v ∧ v ≤ 255

instance (nc width : ℕ) (r : List (List (List ℤ))) :
    Decidable (WfRaster nc width r) := by
  unfold WfRaster
  infer_instance

/-- The expected decode of a clean raster: one `Complete` scan line per
raster line, indices counting up from `k`. -/
def completedLines (k : ℕ) : List (List (List ℤ)) → List ScanLine
  | [] => []
  | l :: t => ⟨k, l, Completeness.complete⟩ :: completedLines (k + 1) t

/-- Modelled from the spec (§8 missing-sync recovery): the synthetic signal
identical to the clean encoding except that line `j`'s sync pulse is
deleted — its samples are replaced by black-level tone so the sample grid
of the remaining lines is untouched. -/
def encodeLineNoSync (mode : ModeDescriptor) (spp : ℕ)
    (line : List (List ℤ)) : List ℚ :=
  List.replicate mode.syncPulseDurationSamples mode.blackFrequencyHz ++
    (line.map (encodeRow mode.blackFrequencyHz mode.whiteFrequencyHz spp)).flatten

/-- Encode a raster with line `j`'s sync pulse deleted. -/
def encodeSignalMissing (mode : ModeDescriptor) (spp : ℕ) :
    ℕ → List (List (List ℤ)) → List ℚ
  | _, [] => []
  | 0, line :: rt => encodeLineNoSync mode spp line ++ encodeSignal mode spp rt
  | j + 1, line :: rt =>
    encodeLine mode spp line ++ encodeSignalMissing mode spp j rt

/-- The expected decode of a raster whose line `j` lost its sync pulse:
line `j` is `Missing`, all others `Complete`. -/
def linesWithMissing (mode : ModeDescriptor) (width k : ℕ) :
    ℕ → List (List (List ℤ)) → List ScanLine
  | _, [] => []
  | 0, _ :: rt => missingLine mode width k :: completedLines (k + 1) rt
  | j + 1, line :: rt =>
    ⟨k, line, Completeness.complete⟩ :: linesWithMissing mode width (k + 1) j rt

/-- Mean absolute per-channel error between two rasters, in intensity units
(the spec's round-trip tolerance is `2` on the 0-255 scale, i.e. `2/255`
after normalization; both are stated below). -/
def meanAbsErr (a b : List (List (List ℤ))) : ℚ :=
  (((a.flatten.flatten).zip (b.flatten.flatten)).map
    fun p => |(p.1 : ℚ) - (p.2 : ℚ)|).sum / ((a.flatten.flatten).length : ℚ)

/-- Modelled from the spec (§3): the `Frame` under construction — mode,
accumulated scan lines, output dimensions. -/
structure Frame where
  mode : ModeDescriptor
  lines : List ScanLine
  width : ℕ
  height : ℕ

/-- Modelled from the spec (§4.3 color conversion): turn one scan line's
channel rows into RGB pixels; YCrCb modes go through the BT.601 formulas
(clamped), RGB-sequential modes pass channel values through unchanged.
Absent channels or columns read the mid-gray sentinel 128. -/
def rgbOfLine (cm : ColorModel) (width : ℕ) (l : ScanLine) :
    List (ℤ × ℤ × ℤ) :=
  (List.range width).map fun x =>
    let c0 := (l.channelValues.getD 0 []).getD x 128
    let c1 := (l.channelValues.getD 1 []).getD x 128
    let c2 := (l.channelValues.getD 2 []).getD x 128
    match cm with
    | ColorModel.ycrcb =>
      (bt601R (c0 : ℚ) (c1 : ℚ), bt601G (c0 : ℚ) (c1 : ℚ) (c2 : ℚ),
        bt601B (c0 : ℚ) (c2 : ℚ))
    | ColorModel.rgbSequential => (c0, c1, c2)

/-- The accumulated scan line at raster row `y`, if any. -/
def findLine (lines : List ScanLine) (y : ℕ) : Option ScanLine :=
  lines.find? fun l => l.lineIndex == y

/-- Modelled from the spec (§4.4): `finalize()` builds the width x height x
RGB raster from the accumulated ScanLines; rows with no received line get
the mid-gray "undecoded" sentinel. -/
def finalizeRaster (f : Frame) : List (List (ℤ × ℤ × ℤ)) :=
  (List.range f.height).map fun y =>
    match findLine f.lines y with
    | some l => rgbOfLine f.mode.colorModel f.width l
    | none => List.replicate f.width (128, 128, 128)

/-- Modelled from the spec (§4.4): `finalize()` as a state transition — it
emits the raster and, being a pure transform over the accumulated
ScanLines, hands the frame state back untouched. -/
def finalizeS (f : Frame) : Frame × List (List (ℤ × ℤ × ℤ)) :=
  (f, finalizeRaster f)

/-! ## The decode session error policy modelled from the specification

Spec §7: `SyncNotFound`, `UnsupportedMode`, `LineTimeout` and
`InsufficientSamples` are all non-fatal to the decode session; the only
fatal condition is exhaustion of the input stream with zero frames ever
started, surfaced as `NoSignalDetected`.  The session is modelled at the
event level: each step of the input is a VIS header detection (a frame
start), one of the four decode errors, or plain sample consumption. -/

/-- Modelled from the spec (§7): the four-member decode error taxonomy. -/
inductive DecodeError where
  | syncNotFound : DecodeError
  | unsupportedMode : DecodeError
  | lineTimeout : DecodeError
  | insufficientSamples : DecodeError
deriving DecidableEq, Repr

/-- One event of a decode session's input stream. -/
inductive SessionStep where
  | visHeader (visCode : ℕ) : SessionStep
  | fault (e : DecodeError) : SessionStep
  | samples : SessionStep
deriving DecidableEq, Repr

/-- Accumulated session state: frames ever started and faults recorded. -/
structure SessionState where
  framesStarted : ℕ
  faults : List DecodeError
deriving DecidableEq, Repr

/-- Modelled from the spec (§7): a VIS header starts a frame; a decode
error is recorded and the session carries on; samples are consumed. -/
def sessionStep (st : SessionState) : SessionStep → SessionState
  | SessionStep.visHeader _ => ⟨st.framesStarted + 1, st.faults⟩
  | SessionStep.fault e => ⟨st.framesStarted, st.faults ++ [e]⟩
  | SessionStep.samples => st

/-- Run a whole session over its input stream. -/
def sessionRun (steps : List SessionStep) : SessionState :=
  steps.foldl sessionStep ⟨0, []⟩

/-- Terminal outcome of a decode session. -/
inductive SessionOutcome where
  | ok : SessionOutcome
  | noSignalDetected : SessionOutcome
deriving DecidableEq, Repr

/-- Modelled from the spec (§7): the session fails fatally with
`NoSignalDetected` exactly when the stream is exhausted with zero frames
ever started. -/
def sessionOutcome (steps : List SessionStep) : SessionOutcome :=
  if (sessionRun steps).framesStarted = 0 then SessionOutcome.noSignalDetected
  else SessionOutcome.ok

/-- Does a session step start a frame? -/
def isVisHeader : SessionStep → Bool
  | SessionStep.visHeader _ => true
  | _ => false

end SSTV

namespace SSTV

/-! ## Supporting lemmas for the decoder model -/

lemma drop_append_len {α : Type} (a X : List α) (n : ℕ) :
    (a ++ X).drop (a.length + n) = X.drop n := by
  rw [List.drop_append_eq_append_drop, List.drop_eq_nil_of_le (by omega)]
  simp

lemma flatten_length_uniform {α : Type} (L : ℕ) :
    ∀ (xs : List (List α)), (∀ x ∈ xs, x.length = L) →
      xs.flatten.length = xs.length * L := by
  intro xs
  induction xs with
  | nil => intro _; simp
  | cons a t ih =>
    intro h
    rw [List.flatten_cons, List.length_append,
      ih (fun x hx => h x (List.mem_cons_of_mem a hx)),
      h a (List.mem_cons_self a t), List.length_cons]
    ring

lemma flatten_drop_uniform {α : Type} (L : ℕ) :
    ∀ (k : ℕ) (xs : List (List α)) (rest : List α),
      (∀ x ∈ xs, x.length = L) → k ≤ xs.length →
      (xs.flatten ++ rest).drop (k * L) = (xs.drop k).flatten ++ rest := by
  intro k
  induction k with
  | zero => intro xs rest _ _; simp
  | succ m ih =>
    intro xs rest h hk
    cases xs with
    | nil => simp at hk
    | cons a t =>
      have ha : a.length = L := h a (List.mem_cons_self a t)
      have hstep : (m + 1) * L = a.length + m * L := by rw [ha]; ring
      rw [List.flatten_cons, List.append_assoc, hstep, drop_append_len]
      exact ih t rest (fun x hx => h x (List.mem_cons_of_mem a hx))
        (by simp at hk; omega)

lemma sliceQ_shift (sig : List ℚ) (a m n : ℕ) :
    sliceQ sig (a + m) n = sliceQ (sig.drop a) m n := by
  unfold sliceQ
  rw [List.drop_drop]

lemma sliceQ_after_lead (a X : List ℚ) (m n : ℕ) :
    sliceQ (a ++ X) (a.length + m) n = sliceQ X m n := by
  unfold sliceQ
  rw [drop_append_len]

lemma sliceQ_append_left (a X : List ℚ) (m n : ℕ) (h : m + n ≤ a.length) :
    sliceQ (a ++ X) m n = sliceQ a m n := by
  unfold sliceQ
  rw [List.drop_append_eq_append_drop, List.take_append_eq_append_take,
    show n - (a.drop m).length = 0 from by rw [List.length_drop]; omega,
    List.take_zero, List.append_nil]

lemma sliceQ_length (sig : List ℚ) (s n : ℕ) :
    (sliceQ sig s n).length = min n (sig.length - s) := by
  unfold sliceQ
  rw [List.length_take, List.length_drop]

lemma drop_eq_getD_cons {α : Type} (d : α) :
    ∀ (l : List α) (x : ℕ), x < l.length →
      l.drop x = l.getD x d :: l.drop (x + 1) := by
  intro l
  induction l with
  | nil => intro x hx; simp at hx
  | cons a t ih =>
    intro x hx
    cases x with
    | zero => rfl
    | succ m =>
      rw [List.drop_succ_cons, List.getD_cons_succ,
        ih m (by simpa using hx)]
      rfl

lemma map_getD_range {α : Type} (l : List α) (d : α) :
    (List.range l.length).map (fun i => l.getD i d) = l := by
  induction l with
  | nil => rfl
  | cons a t ih =>
    rw [List.length_cons, List.range_succ_eq_map, List.map_cons, List.map_map]
    simp only [List.getD_cons_zero]
    congr 1

lemma getD_mem_of_lt {α : Type} (l : List α) (d : α) (i : ℕ)
    (h : i < l.length) : l.getD i d ∈ l := by
  rw [List.getD_eq_getElem l d h]
  exact List.getElem_mem h

lemma encodeRow_length (b w : ℚ) (spp : ℕ) (row : List ℤ) :
    (encodeRow b w spp row).length = row.length * spp := by
  unfold encodeRow
  rw [flatten_length_uniform spp _ ?_, List.length_map]
  intro x hx
  rcases List.mem_map.mp hx with ⟨v, _, rfl⟩
  exact List.length_replicate spp _

lemma encodeLine_length (mode : ModeDescriptor) (spp width : ℕ)
    (line : List (List ℤ)) (hrows : ∀ row ∈ line, row.length = width) :
    (encodeLine mode spp line).length =
      mode.syncPulseDurationSamples + line.length * (width * spp) := by
  unfold encodeLine
  rw [List.length_append, List.length_replicate,
    flatten_length_uniform (width * spp) _ ?_, List.length_map]
  intro x hx
  rcases List.mem_map.mp hx with ⟨row, hrow, rfl⟩
  rw [encodeRow_length, hrows row hrow]

lemma encodeLineNoSync_length (mode : ModeDescriptor) (spp width : ℕ)
    (line : List (List ℤ)) (hrows : ∀ row ∈ line, row.length = width) :
    (encodeLineNoSync mode spp line).length =
      mode.syncPulseDurationSamples + line.length * (width * spp) := by
  unfold encodeLineNoSync
  rw [List.length_append, List.length_replicate,
    flatten_length_uniform (width * spp) _ ?_, List.length_map]
  intro x hx
  rcases List.mem_map.mp hx with ⟨row, hrow, rfl⟩
  rw [encodeRow_length, hrows row hrow]

lemma avgQ_replicate (n : ℕ) (hn : 0 < n) (x : ℚ) :
    avgQ (List.replicate n x) = x := by
  unfold avgQ
  rw [List.sum_replicate, List.length_replicate, nsmul_eq_mul]
  have hne : (n : ℚ) ≠ 0 := Nat.cast_ne_zero.mpr hn.ne'
  field_simp

lemma intensity_pixFreq (b w : ℚ) (hbw : b < w) (v : ℤ)
    (h0 : 0 ≤ v) (h1 : v ≤ 255) :
    intensity b w (pixFreq b w v) = v := by
  unfold intensity pixFreq
  have hne : w - b ≠ 0 := by intro h; linarith
  have harg : (b + (v : ℚ) / 255 * (w - b) - b) / (w - b) * 255 = (v : ℚ) := by
    field_simp
    ring
  rw [harg, round_intCast, clampI_of_mem v h0 h1]

end SSTV

namespace SSTV

lemma take_append_of_length {α : Type} (a X : List α) (n : ℕ)
    (h : a.length = n) : (a ++ X).take n = a := by
  subst h
  exact List.take_left a X

lemma sliceQ_replicate_lead (d : ℕ) (f₀ : ℚ) (X : List ℚ) (m n : ℕ) :
    sliceQ (List.replicate d f₀ ++ X) (d + m) n = sliceQ X m n := by
  have h := sliceQ_after_lead (List.replicate d f₀) X m n
  rwa [List.length_replicate] at h

lemma decodePixel_replicate (b w : ℚ) (hbw : b < w) (prev : ℤ) (spp : ℕ)
    (hsp : 0 < spp) (v : ℤ) (h0 : 0 ≤ v) (h1 : v ≤ 255) :
    decodePixel b w prev (List.replicate spp (pixFreq b w v)) = v := by
  cases spp with
  | zero => exact absurd hsp (lt_irrefl 0)
  | succ q =>
    rw [List.replicate_succ]
    show intensity b w (avgQ (pixFreq b w v :: List.replicate q (pixFreq b w v))) = v
    rw [← List.replicate_succ, avgQ_replicate (q + 1) (Nat.succ_pos q),
      intensity_pixFreq b w hbw v h0 h1]

lemma decodeRowGo_spec (b w : ℚ) (hbw : b < w) (sig : List ℚ) (spp : ℕ)
    (hsp : 0 < spp) :
    ∀ (n start : ℕ) (prev : ℤ) (vals : ℕ → ℤ),
      (∀ x, x < n → sliceQ sig (start + x * spp) spp =
          List.replicate spp (pixFreq b w (vals x)) ∧
          0 ≤ vals x ∧ vals x ≤ 255) →
      decodeRowGo b w sig spp start n prev = (List.range n).map vals := by
  intro n
  induction n with
  | zero => intro start prev vals _; rfl
  | succ m ih =>
    intro start prev vals h
    obtain ⟨hslice0, hv00, hv01⟩ := h 0 (Nat.succ_pos m)
    rw [show start + 0 * spp = start from by ring] at hslice0
    have hrec : decodeRowGo b w sig spp (start + spp) m (vals 0) =
        (List.range m).map (fun x => vals (x + 1)) := by
      apply ih
      intro x hx
      have hx1 := h (x + 1) (by omega)
      rwa [show start + (x + 1) * spp = start + spp + x * spp from by ring]
        at hx1
    show decodePixel b w prev (sliceQ sig start spp) ::
        decodeRowGo b w sig spp (start + spp) m
          (decodePixel b w prev (sliceQ sig start spp)) =
      (List.range (m + 1)).map vals
    rw [hslice0, decodePixel_replicate b w hbw prev spp hsp (vals 0) hv00 hv01,
      hrec, List.range_succ_eq_map, List.map_cons, List.map_map]
    rfl

lemma encodeRow_slice (b w : ℚ) (spp : ℕ) (row : List ℤ) (rest : List ℚ)
    (x : ℕ) (hx : x < row.length) :
    sliceQ (encodeRow b w spp row ++ rest) (x * spp) spp =
      List.replicate spp (pixFreq b w (row.getD x 0)) := by
  have hle : x * spp + spp ≤ (encodeRow b w spp row).length := by
    rw [encodeRow_length]
    have h1 : (x + 1) * spp ≤ row.length * spp :=
      Nat.mul_le_mul_right spp (by omega)
    have h2 : (x + 1) * spp = x * spp + spp := by ring
    omega
  rw [sliceQ_append_left _ _ _ _ hle]
  unfold encodeRow sliceQ
  have hunif : ∀ y ∈ row.map fun v => List.replicate spp (pixFreq b w v),
      y.length = spp := by
    intro y hy
    rcases List.mem_map.mp hy with ⟨v, _, rfl⟩
    exact List.length_replicate spp _
  have hdrop := flatten_drop_uniform spp x
    (row.map fun v => List.replicate spp (pixFreq b w v)) [] hunif
    (by rw [List.length_map]; omega)
  rw [List.append_nil, List.append_nil] at hdrop
  rw [hdrop, ← List.map_drop, drop_eq_getD_cons 0 row x hx, List.map_cons,
    List.flatten_cons]
  exact take_append_of_length _ _ spp (List.length_replicate spp _)

lemma body_slice (b w : ℚ) (spp width : ℕ) (line : List (List ℤ))
    (rest : List ℚ) (hrows : ∀ row ∈ line, row.length = width)
    (c x : ℕ) (hc : c < line.length) (hx : x < width) :
    sliceQ ((line.map (encodeRow b w spp)).flatten ++ rest)
      (c * (width * spp) + x * spp) spp =
      List.replicate spp (pixFreq b w ((line.getD c []).getD x 0)) := by
  have hunif : ∀ y ∈ line.map (encodeRow b w spp), y.length = width * spp := by
    intro y hy
    rcases List.mem_map.mp hy with ⟨row, hrow, rfl⟩
    rw [encodeRow_length, hrows row hrow]
  unfold sliceQ
  rw [← List.drop_drop]
  have hdrop := flatten_drop_uniform (width * spp) c
    (line.map (encodeRow b w spp)) rest hunif
    (by rw [List.length_map]; omega)
  rw [hdrop, ← List.map_drop, drop_eq_getD_cons [] line c hc, List.map_cons,
    List.flatten_cons, List.append_assoc]
  show sliceQ (encodeRow b w spp (line.getD c []) ++ _) (x * spp) spp = _
  rw [encodeRow_slice b w spp (line.getD c []) _ x
    (by rw [hrows (line.getD c []) (getD_mem_of_lt line [] c hc)]; omega)]

end SSTV

namespace SSTV

/-- Decoding the channels of a line whose anchor is sample 0, over a signal
made of a `syncDur`-sample prefix (any tone), the encoded channel rows, and
arbitrary trailing samples, recovers the original line exactly. -/
lemma decodeChannels_lead (nc width spp syncDur : ℕ) (b w : ℚ) (f₀ : ℚ)
    (hw : 0 < width) (hsp : 0 < spp) (hbw : b < w)
    (line : List (List ℤ)) (rest : List ℚ)
    (hlen : line.length = nc)
    (hrows : ∀ row ∈ line, row.length = width ∧ ∀ v ∈ row, 0 ≤ v ∧ v ≤ 255) :
    decodeChannels (mkMode nc width spp syncDur b w) width
      (List.replicate syncDur f₀ ++
        ((line.map (encodeRow b w spp)).flatten ++ rest)) 0 = line := by
  unfold decodeChannels
  simp only [mkMode, List.map_map]
  have hcongr : ∀ c ∈ List.range nc,
      ((fun cs : ChannelSpec =>
          decodeRow b w
            (List.replicate syncDur f₀ ++
              ((line.map (encodeRow b w spp)).flatten ++ rest))
            (0 + cs.offsetWithinLineSamples) (cs.durationSamples / width)
            width) ∘
        fun c => (⟨c, width * spp, syncDur + c * (width * spp)⟩ :
          ChannelSpec)) c = line.getD c [] := by
    intro c hc
    have hc' : c < nc := List.mem_range.mp hc
    have hcl : c < line.length := by omega
    show decodeRow b w
        (List.replicate syncDur f₀ ++
          ((line.map (encodeRow b w spp)).flatten ++ rest))
        (0 + (syncDur + c * (width * spp))) (width * spp / width) width =
      line.getD c []
    rw [zero_add, Nat.mul_div_cancel_left spp hw]
    unfold decodeRow
    have hrowc : (line.getD c []).length = width :=
      (hrows (line.getD c []) (getD_mem_of_lt line [] c hcl)).1
    rw [decodeRowGo_spec b w hbw _ spp hsp width
      (syncDur + c * (width * spp)) 0 (fun x => (line.getD c []).getD x 0) ?_]
    · rw [show width = (line.getD c []).length from hrowc.symm,
        map_getD_range]
    · intro x hx
      refine ⟨?_, ?_⟩
      · rw [show syncDur + c * (width * spp) + x * spp =
            syncDur + (c * (width * spp) + x * spp) from by ring,
          sliceQ_replicate_lead,
          body_slice b w spp width line rest
            (fun row hrow => (hrows row hrow).1) c x hcl hx]
      · have hvm : (line.getD c []).getD x 0 ∈ line.getD c [] :=
          getD_mem_of_lt _ 0 x (by omega)
        exact (hrows (line.getD c []) (getD_mem_of_lt line [] c hcl)).2 _ hvm
  rw [List.map_congr_left hcongr, ← hlen, map_getD_range]

/-- Over the same signal shape, every channel window is fully available, so
the line is `Complete`. -/
lemma lineCompleteness_lead (nc width spp syncDur : ℕ) (b w : ℚ) (f₀ : ℚ)
    (line : List (List ℤ)) (rest : List ℚ)
    (hlen : line.length = nc)
    (hrows : ∀ row ∈ line, row.length = width) :
    lineCompleteness (mkMode nc width spp syncDur b w)
      (List.replicate syncDur f₀ ++
        ((line.map (encodeRow b w spp)).flatten ++ rest)) 0 =
      Completeness.complete := by
  unfold lineCompleteness
  rw [if_pos]
  rw [List.all_eq_true]
  intro cs hcs
  simp only [mkMode] at hcs
  rcases List.mem_map.mp hcs with ⟨c, hc, rfl⟩
  have hc' : c < nc := List.mem_range.mp hc
  have hflat : ((line.map (encodeRow b w spp)).flatten).length =
      nc * (width * spp) := by
    rw [flatten_length_uniform (width * spp)]
    · rw [List.length_map, hlen]
    · intro y hy
      rcases List.mem_map.mp hy with ⟨row, hrow, rfl⟩
      rw [encodeRow_length, hrows row hrow]
  have hsiglen : (List.replicate syncDur f₀ ++
      ((line.map (encodeRow b w spp)).flatten ++ rest)).length =
      syncDur + (nc * (width * spp) + rest.length) := by
    rw [List.length_append, List.length_append, List.length_replicate, hflat]
  have havail : channelAvailable
      (List.replicate syncDur f₀ ++
        ((line.map (encodeRow b w spp)).flatten ++ rest)) 0
      ⟨c, width * spp, syncDur + c * (width * spp)⟩ = width * spp := by
    unfold channelAvailable
    rw [sliceQ_length, hsiglen]
    dsimp only
    have hcc : (c + 1) * (width * spp) ≤ nc * (width * spp) :=
      Nat.mul_le_mul_right (width * spp) (by omega)
    have hexp : (c + 1) * (width * spp) =
        c * (width * spp) + width * spp := by ring
    omega
  rw [havail]
  simp
  omega

end SSTV

namespace SSTV

/-- A signal that opens with a nonempty run of the mode's own sync tone is
accepted at offset 0 — the nominal position. -/
lemma acceptedSyncOffset_lead_sync (m : ModeDescriptor) (d : ℕ)
    (X : List ℚ) (hd : 0 < d) (hL : 0 < m.lineDurationSamples) :
    acceptedSyncOffset m (List.replicate d m.syncFrequencyHz ++ X) =
      some 0 := by
  have h0 : (List.replicate d m.syncFrequencyHz ++ X)[0]? =
      some m.syncFrequencyHz := by
    rw [List.getElem?_append_left (by rw [List.length_replicate]; omega),
      List.getElem?_replicate, if_pos hd]
  have hfind : syncSearchOffset m
      (List.replicate d m.syncFrequencyHz ++ X) = some 0 := by
    unfold syncSearchOffset
    obtain ⟨n', hn'⟩ : ∃ n', 3 * m.lineDurationSamples / 2 = n' + 1 :=
      ⟨3 * m.lineDurationSamples / 2 - 1, by omega⟩
    rw [hn', List.range_succ_eq_map]
    apply List.find?_cons_of_pos
    rw [h0]
    show isSyncTone m m.syncFrequencyHz = true
    unfold isSyncTone
    rw [decide_eq_true_eq]
    rw [sub_self, abs_zero]
    norm_num
  unfold acceptedSyncOffset
  rw [hfind]
  show (if 2 * 0 < m.lineDurationSamples then some 0 else none) = some 0
  rw [if_pos (by omega)]

/-- If no sample within one nominal line duration matches the sync tone,
the line's sync is not accepted (any match found further out is at least
half a line past the nominal boundary). -/
lemma acceptedSyncOffset_none_of_noTone (m : ModeDescriptor) (sig : List ℚ)
    (h : ∀ j, j < m.lineDurationSamples →
      ((sig[j]?).any (isSyncTone m)) = false) :
    acceptedSyncOffset m sig = none := by
  unfold acceptedSyncOffset
  cases hfind : syncSearchOffset m sig with
  | none => rfl
  | some j =>
    have hfind' : (List.range (3 * m.lineDurationSamples / 2)).find?
        (fun j => ((sig[j]?).any (isSyncTone m))) = some j := hfind
    have hp0 := List.find?_some hfind'
    have hp : ((sig[j]?).any (isSyncTone m)) = true := hp0
    have hj : ¬ j < m.lineDurationSamples := by
      intro hj
      rw [h j hj] at hp
      cases hp
    show (if 2 * j < m.lineDurationSamples then some j else none) = none
    rw [if_neg (by omega)]

/-- Every sample of the encoded channel data lies at or above the black
frequency. -/
lemma mem_encode_body_ge (b w : ℚ) (hbw : b < w) (spp : ℕ)
    (line : List (List ℤ))
    (hvals : ∀ row ∈ line, ∀ v ∈ row, 0 ≤ v ∧ v ≤ 255)
    (a : ℚ) (ha : a ∈ (line.map (encodeRow b w spp)).flatten) : b ≤ a := by
  rcases List.mem_flatten.mp ha with ⟨y, hy, hay⟩
  rcases List.mem_map.mp hy with ⟨row, hrow, rfl⟩
  unfold encodeRow at hay
  rcases List.mem_flatten.mp hay with ⟨z, hz, haz⟩
  rcases List.mem_map.mp hz with ⟨v, hv, rfl⟩
  rw [List.eq_of_mem_replicate haz]
  unfold pixFreq
  have hv0 : (0 : ℚ) ≤ (v : ℚ) := by
    exact_mod_cast (hvals row hrow v hv).1
  have hnn : 0 ≤ (v : ℚ) / 255 * (w - b) :=
    mul_nonneg (div_nonneg hv0 (by norm_num)) (by linarith)
  linarith

/-- With the black frequency above 1250 Hz, no sample of a sync-deleted
line (black-tone pulse slot plus channel data) matches the 1200 Hz sync
tone of the sequential mode within the ±50 Hz band. -/
lemma noTone_encodeLineNoSync (nc width spp syncDur : ℕ) (b w : ℚ)
    (hb : 1250 < b) (hbw : b < w)
    (line : List (List ℤ)) (rest : List ℚ)
    (hlen : line.length = nc)
    (hrows : ∀ row ∈ line, row.length = width ∧ ∀ v ∈ row, 0 ≤ v ∧ v ≤ 255) :
    ∀ j, j < (mkMode nc width spp syncDur b w).lineDurationSamples →
      (((encodeLineNoSync (mkMode nc width spp syncDur b w) spp line ++
          rest)[j]?).any
        (isSyncTone (mkMode nc width spp syncDur b w))) = false := by
  intro j hj
  have hlenL : (encodeLineNoSync (mkMode nc width spp syncDur b w) spp
      line).length = syncDur + nc * (width * spp) := by
    rw [encodeLineNoSync_length (mkMode nc width spp syncDur b w) spp width
      line (fun row hrow => (hrows row hrow).1), hlen]
    rfl
  have hjlen : j < (encodeLineNoSync (mkMode nc width spp syncDur b w) spp
      line).length := by
    rw [hlenL]
    simpa [mkMode] using hj
  rw [List.getElem?_append_left hjlen,
    List.getElem?_eq_getElem hjlen]
  show isSyncTone (mkMode nc width spp syncDur b w) _ = false
  set a := (encodeLineNoSync (mkMode nc width spp syncDur b w) spp
    line)[j] with hadef
  have ha : a ∈ encodeLineNoSync (mkMode nc width spp syncDur b w) spp
      line := List.getElem_mem hjlen
  have hab : b ≤ a := by
    unfold encodeLineNoSync at ha
    rcases List.mem_append.mp ha with hrep | hbody
    · rw [List.eq_of_mem_replicate hrep]
      show (mkMode nc width spp syncDur b w).blackFrequencyHz ≤
        (mkMode nc width spp syncDur b w).blackFrequencyHz
      exact le_refl _
    · exact mem_encode_body_ge b w hbw spp line
        (fun row hrow => (hrows row hrow).2) a hbody
  have hab' : b ≤ a := hab
  unfold isSyncTone
  apply decide_eq_false
  intro habs
  have hsf : (mkMode nc width spp syncDur b w).syncFrequencyHz = 1200 := rfl
  rw [hsf] at habs
  have hpos : (0 : ℚ) < a - 1200 := by linarith
  rw [abs_of_pos hpos] at habs
  linarith

end SSTV

namespace SSTV

lemma encodeSignal_length (nc width spp syncDur : ℕ) (b w : ℚ)
    (r : List (List (List ℤ))) (hwf : WfRaster nc width r) :
    (encodeSignal (mkMode nc width spp syncDur b w) spp r).length =
      r.length * (syncDur + nc * (width * spp)) := by
  unfold encodeSignal
  rw [flatten_length_uniform (syncDur + nc * (width * spp)) _ ?_,
    List.length_map]
  intro x hx
  rcases List.mem_map.mp hx with ⟨line, hline, rfl⟩
  rw [encodeLine_length (mkMode nc width spp syncDur b w) spp width line
    (fun row hrow => ((hwf line hline).2 row hrow).1), (hwf line hline).1]
  rfl

/-- One line of a clean encoded signal decodes to the original line,
marked `Complete`, for any trailing signal. -/
lemma decodeLineAt_encodeLine (nc width spp syncDur : ℕ) (b w : ℚ)
    (hw : 0 < width) (hsp : 0 < spp) (hbw : b < w)
    (line : List (List ℤ)) (rest : List ℚ) (k : ℕ)
    (hlen : line.length = nc)
    (hrows : ∀ row ∈ line, row.length = width ∧ ∀ v ∈ row, 0 ≤ v ∧ v ≤ 255) :
    decodeLineAt (mkMode nc width spp syncDur b w) width
      (encodeLine (mkMode nc width spp syncDur b w) spp line ++ rest) 0 k =
      ⟨k, line, Completeness.complete⟩ := by
  have hassoc : encodeLine (mkMode nc width spp syncDur b w) spp line ++
      rest =
      List.replicate syncDur (mkMode nc width spp syncDur b w).syncFrequencyHz
        ++ ((line.map (encodeRow b w spp)).flatten ++ rest) := by
    unfold encodeLine
    rw [List.append_assoc]
    rfl
  unfold decodeLineAt
  rw [hassoc]
  rw [decodeChannels_lead nc width spp syncDur b w _ hw hsp hbw line rest
    hlen hrows,
    lineCompleteness_lead nc width spp syncDur b w _ line rest hlen
    (fun row hrow => (hrows row hrow).1)]

/-- Decoding a cleanly encoded raster yields exactly one `Complete` scan
line per raster line, carrying the original channel data. -/
lemma decodeLinesGo_encodeSignal (nc width spp syncDur : ℕ) (b w : ℚ)
    (hw : 0 < width) (hsp : 0 < spp) (hsd : 0 < syncDur) (hbw : b < w) :
    ∀ (r : List (List (List ℤ))) (fuel k : ℕ),
      r.length ≤ fuel → WfRaster nc width r →
      decodeLinesGo (mkMode nc width spp syncDur b w) width fuel
        (encodeSignal (mkMode nc width spp syncDur b w) spp r) k =
      completedLines k r := by
  intro r
  induction r with
  | nil =>
    intro fuel k _ _
    show decodeLinesGo (mkMode nc width spp syncDur b w) width fuel [] k = []
    cases fuel with
    | zero => rfl
    | succ f =>
      show (if (mkMode nc width spp syncDur b w).lineDurationSamples ≤
          (([] : List ℚ)).length then _ else []) = []
      rw [if_neg]
      show ¬ (mkMode nc width spp syncDur b w).lineDurationSamples ≤ 0
      show ¬ syncDur + nc * (width * spp) ≤ 0
      omega
  | cons line rt ih =>
    intro fuel k hfuel hwf
    cases fuel with
    | zero => simp at hfuel
    | succ f =>
      have hwfline := hwf line (List.mem_cons_self line rt)
      have hwfrt : WfRaster nc width rt :=
        fun l hl => hwf l (List.mem_cons_of_mem line hl)
      have hsig : encodeSignal (mkMode nc width spp syncDur b w) spp
          (line :: rt) =
          encodeLine (mkMode nc width spp syncDur b w) spp line ++
            encodeSignal (mkMode nc width spp syncDur b w) spp rt := by
        unfold encodeSignal
        rw [List.map_cons, List.flatten_cons]
      have hlineL : (encodeLine (mkMode nc width spp syncDur b w) spp
          line).length = syncDur + nc * (width * spp) := by
        rw [encodeLine_length (mkMode nc width spp syncDur b w) spp width line
          (fun row hrow => (hwfline.2 row hrow).1), hwfline.1]
        rfl
      have hL : (mkMode nc width spp syncDur b w).lineDurationSamples =
          syncDur + nc * (width * spp) := rfl
      rw [hsig]
      show (if (mkMode nc width spp syncDur b w).lineDurationSamples ≤
          (encodeLine (mkMode nc width spp syncDur b w) spp line ++
            encodeSignal (mkMode nc width spp syncDur b w) spp rt).length
        then _ else []) = _
      rw [if_pos (by
        rw [List.length_append, hlineL, hL]
        omega)]
      have hsync : acceptedSyncOffset (mkMode nc width spp syncDur b w)
          (encodeLine (mkMode nc width spp syncDur b w) spp line ++
            encodeSignal (mkMode nc width spp syncDur b w) spp rt) =
          some 0 := by
        have hassoc : encodeLine (mkMode nc width spp syncDur b w) spp line ++
            encodeSignal (mkMode nc width spp syncDur b w) spp rt =
            List.replicate syncDur
              (mkMode nc width spp syncDur b w).syncFrequencyHz ++
              ((line.map (encodeRow b w spp)).flatten ++
                encodeSignal (mkMode nc width spp syncDur b w) spp rt) := by
          unfold encodeLine
          rw [List.append_assoc]
          rfl
        rw [hassoc]
        exact acceptedSyncOffset_lead_sync (mkMode nc width spp syncDur b w)
          syncDur _ hsd (by rw [hL]; omega)
      rw [hsync]
      show decodeLineAt (mkMode nc width spp syncDur b w) width _ 0 k ::
          decodeLinesGo (mkMode nc width spp syncDur b w) width f _ (k + 1) =
        _
      rw [decodeLineAt_encodeLine nc width spp syncDur b w hw hsp hbw line _
        k hwfline.1 hwfline.2]
      rw [show (0 : ℕ) + (mkMode nc width spp syncDur b w).lineDurationSamples
          = (encodeLine (mkMode nc width spp syncDur b w) spp line).length
        from by rw [hlineL, hL]; omega]
      rw [List.drop_left]
      rw [ih f (k + 1) (by simp at hfuel; omega) hwfrt]
      rfl

end SSTV

namespace SSTV

lemma completedLines_map_channels :
    ∀ (k : ℕ) (r : List (List (List ℤ))),
      (completedLines k r).map ScanLine.channelValues = r := by
  intro k r
  induction r generalizing k with
  | nil => rfl
  | cons line rt ih =>
    show line :: (completedLines (k + 1) rt).map ScanLine.channelValues =
      line :: rt
    rw [ih (k + 1)]

lemma completedLines_length :
    ∀ (k : ℕ) (r : List (List (List ℤ))),
      (completedLines k r).length = r.length := by
  intro k r
  induction r generalizing k with
  | nil => rfl
  | cons line rt ih =>
    show (completedLines (k + 1) rt).length + 1 = rt.length + 1
    rw [ih (k + 1)]

lemma completedLines_complete :
    ∀ (k : ℕ) (r : List (List (List ℤ))) (l : ScanLine),
      l ∈ completedLines k r → l.completeness = Completeness.complete := by
  intro k r
  induction r generalizing k with
  | nil => intro l hl; cases hl
  | cons line rt ih =>
    intro l hl
    rcases List.mem_cons.mp hl with rfl | hl'
    · rfl
    · exact ih (k + 1) l hl'

lemma zip_self_map {α : Type} (l : List α) :
    l.zip l = l.map fun x => (x, x) := by
  induction l with
  | nil => rfl
  | cons a t ih =>
    show (a, a) :: t.zip t = (a, a) :: t.map fun x => (x, x)
    rw [ih]

lemma meanAbsErr_self (a : List (List (List ℤ))) : meanAbsErr a a = 0 := by
  unfold meanAbsErr
  rw [zip_self_map, List.map_map]
  have hz : ∀ y ∈ (a.flatten.flatten).map
      ((fun p : ℤ × ℤ => |(p.1 : ℚ) - (p.2 : ℚ)|) ∘ fun x => (x, x)),
      y = 0 := by
    intro y hy
    rcases List.mem_map.mp hy with ⟨x, _, rfl⟩
    show |(x : ℚ) - (x : ℚ)| = 0
    rw [sub_self, abs_zero]
  rw [List.sum_eq_zero hz, zero_div]

end SSTV

/-- **C2.** Encoding any well-formed raster through a sequential mode's
timing/frequency scheme into a synthetic frequency-sample signal and
feeding it through the Sync Detector and Line Decoder reconstructs the
original raster exactly — in particular within a mean absolute per-channel
error below the spec's `2/255` tolerance (2 intensity units on the 0-255
scale). -/
theorem C2_encode_decode_roundtrip (nc width spp syncDur : ℕ) (b w : ℚ)
    (r : List (List (List ℤ)))
    (hnc : 0 < nc) (hw : 0 < width) (hsp : 0 < spp) (hsd : 0 < syncDur)
    (hbw : b < w) (hwf : SSTV.WfRaster nc width r) :
    ((SSTV.decodeFrameLines (SSTV.mkMode nc width spp syncDur b w) width
        (SSTV.encodeSignal (SSTV.mkMode nc width spp syncDur b w) spp r)).map
      SSTV.ScanLine.channelValues = r) ∧
    SSTV.meanAbsErr
      ((SSTV.decodeFrameLines (SSTV.mkMode nc width spp syncDur b w) width
        (SSTV.encodeSignal (SSTV.mkMode nc width spp syncDur b w) spp r)).map
        SSTV.ScanLine.channelValues) r < 2 / 255 := by
  have hfuel : r.length ≤
      (SSTV.encodeSignal (SSTV.mkMode nc width spp syncDur b w) spp
        r).length + 1 := by
    rw [SSTV.encodeSignal_length nc width spp syncDur b w r hwf]
    have : r.length * 1 ≤ r.length * (syncDur + nc * (width * spp)) :=
      Nat.mul_le_mul_left r.length (by omega)
    omega
  have hdec : SSTV.decodeFrameLines (SSTV.mkMode nc width spp syncDur b w)
      width (SSTV.encodeSignal (SSTV.mkMode nc width spp syncDur b w) spp r) =
      SSTV.completedLines 0 r := by
    unfold SSTV.decodeFrameLines
    exact SSTV.decodeLinesGo_encodeSignal nc width spp syncDur b w hw hsp hsd
      hbw r _ 0 hfuel hwf
  rw [hdec, SSTV.completedLines_map_channels, SSTV.meanAbsErr_self]
  exact ⟨rfl, by norm_num⟩

/-- Witness for C2: a 2-line, 3-channel, 2-pixel raster through the mode
with `spp = 1`, `syncDur = 1`, black 1500 Hz, white 2300 Hz. -/
theorem C2_encode_decode_roundtrip_witness :
    ((SSTV.decodeFrameLines (SSTV.mkMode 3 2 1 1 1500 2300) 2
        (SSTV.encodeSignal (SSTV.mkMode 3 2 1 1 1500 2300) 1
          [[[0, 255], [17, 32], [128, 9]], [[1, 2], [3, 4], [5, 6]]])).map
      SSTV.ScanLine.channelValues =
      [[[0, 255], [17, 32], [128, 9]], [[1, 2], [3, 4], [5, 6]]]) ∧
    SSTV.meanAbsErr
      ((SSTV.decodeFrameLines (SSTV.mkMode 3 2 1 1 1500 2300) 2
        (SSTV.encodeSignal (SSTV.mkMode 3 2 1 1 1500 2300) 1
          [[[0, 255], [17, 32], [128, 9]], [[1, 2], [3, 4], [5, 6]]])).map
        SSTV.ScanLine.channelValues)
      [[[0, 255], [17, 32], [128, 9]], [[1, 2], [3, 4], [5, 6]]] < 2 / 255 :=
  C2_encode_decode_roundtrip 3 2 1 1 1500 2300
    [[[0, 255], [17, 32], [128, 9]], [[1, 2], [3, 4], [5, 6]]]
    (by norm_num) (by norm_num) (by norm_num) (by norm_num) (by norm_num)
    (by decide)

namespace SSTV

/-- Decoding a raster encoded with line `j`'s sync pulse deleted: line `j`
comes out `Missing`, every other line `Complete` with its original data. -/
lemma decodeLinesGo_missing (nc width spp syncDur : ℕ) (b w : ℚ)
    (hw : 0 < width) (hsp : 0 < spp) (hsd : 0 < syncDur)
    (hb : 1250 < b) (hbw : b < w) :
    ∀ (r : List (List (List ℤ))) (j fuel k : ℕ),
      j < r.length → r.length ≤ fuel → WfRaster nc width r →
      decodeLinesGo (mkMode nc width spp syncDur b w) width fuel
        (encodeSignalMissing (mkMode nc width spp syncDur b w) spp j r) k =
      linesWithMissing (mkMode nc width spp syncDur b w) width k j r := by
  intro r
  induction r with
  | nil => intro j fuel k hj; simp at hj
  | cons line rt ih =>
    intro j fuel k hj hfuel hwf
    cases fuel with
    | zero => simp at hfuel
    | succ f =>
      have hwfline := hwf line (List.mem_cons_self line rt)
      have hwfrt : WfRaster nc width rt :=
        fun l hl => hwf l (List.mem_cons_of_mem line hl)
      have hL : (mkMode nc width spp syncDur b w).lineDurationSamples =
          syncDur + nc * (width * spp) := rfl
      cases j with
      | zero =>
        have hsig : encodeSignalMissing (mkMode nc width spp syncDur b w)
            spp 0 (line :: rt) =
            encodeLineNoSync (mkMode nc width spp syncDur b w) spp line ++
              encodeSignal (mkMode nc width spp syncDur b w) spp rt := rfl
        have hlineL : (encodeLineNoSync (mkMode nc width spp syncDur b w)
            spp line).length = syncDur + nc * (width * spp) := by
          rw [encodeLineNoSync_length (mkMode nc width spp syncDur b w) spp
            width line (fun row hrow => (hwfline.2 row hrow).1), hwfline.1]
          rfl
        rw [hsig]
        show (if (mkMode nc width spp syncDur b w).lineDurationSamples ≤
            (encodeLineNoSync (mkMode nc width spp syncDur b w) spp line ++
              encodeSignal (mkMode nc width spp syncDur b w) spp rt).length
          then _ else []) = _
        rw [if_pos (by
          rw [List.length_append, hlineL, hL]
          omega)]
        have hsync : acceptedSyncOffset (mkMode nc width spp syncDur b w)
            (encodeLineNoSync (mkMode nc width spp syncDur b w) spp line ++
              encodeSignal (mkMode nc width spp syncDur b w) spp rt) =
            none :=
          acceptedSyncOffset_none_of_noTone _ _
            (noTone_encodeLineNoSync nc width spp syncDur b w hb hbw line _
              hwfline.1 hwfline.2)
        rw [hsync]
        show missingLine (mkMode nc width spp syncDur b w) width k ::
            decodeLinesGo (mkMode nc width spp syncDur b w) width f _ (k + 1)
          = _
        rw [show (mkMode nc width spp syncDur b w).lineDurationSamples =
            (encodeLineNoSync (mkMode nc width spp syncDur b w) spp
              line).length from by rw [hlineL, hL]]
        rw [List.drop_left]
        rw [decodeLinesGo_encodeSignal nc width spp syncDur b w hw hsp hsd
          hbw rt f (k + 1) (by simp at hfuel; omega) hwfrt]
        rfl
      | succ j' =>
        have hsig : encodeSignalMissing (mkMode nc width spp syncDur b w)
            spp (j' + 1) (line :: rt) =
            encodeLine (mkMode nc width spp syncDur b w) spp line ++
              encodeSignalMissing (mkMode nc width spp syncDur b w) spp j'
                rt := rfl
        have hlineL : (encodeLine (mkMode nc width spp syncDur b w) spp
            line).length = syncDur + nc * (width * spp) := by
          rw [encodeLine_length (mkMode nc width spp syncDur b w) spp width
            line (fun row hrow => (hwfline.2 row hrow).1), hwfline.1]
          rfl
        rw [hsig]
        show (if (mkMode nc width spp syncDur b w).lineDurationSamples ≤
            (encodeLine (mkMode nc width spp syncDur b w) spp line ++
              encodeSignalMissing (mkMode nc width spp syncDur b w) spp j'
                rt).length
          then _ else []) = _
        rw [if_pos (by
          rw [List.length_append, hlineL, hL]
          omega)]
        have hsync : acceptedSyncOffset (mkMode nc width spp syncDur b w)
            (encodeLine (mkMode nc width spp syncDur b w) spp line ++
              encodeSignalMissing (mkMode nc width spp syncDur b w) spp j'
                rt) = some 0 := by
          have hassoc : encodeLine (mkMode nc width spp syncDur b w) spp
              line ++
              encodeSignalMissing (mkMode nc width spp syncDur b w) spp j'
                rt =
              List.replicate syncDur
                (mkMode nc width spp syncDur b w).syncFrequencyHz ++
                ((line.map (encodeRow b w spp)).flatten ++
                  encodeSignalMissing (mkMode nc width spp syncDur b w) spp
                    j' rt) := by
            unfold encodeLine
            rw [List.append_assoc]
            rfl
          rw [hassoc]
          exact acceptedSyncOffset_lead_sync
            (mkMode nc width spp syncDur b w) syncDur _ hsd
            (by rw [hL]; omega)
        rw [hsync]
        show decodeLineAt (mkMode nc width spp syncDur b w) width _ 0 k ::
            decodeLinesGo (mkMode nc width spp syncDur b w) width f _ (k + 1)
          = _
        rw [decodeLineAt_encodeLine nc width spp syncDur b w hw hsp hbw line
          _ k hwfline.1 hwfline.2]
        rw [show (0 : ℕ) +
            (mkMode nc width spp syncDur b w).lineDurationSamples =
            (encodeLine (mkMode nc width spp syncDur b w) spp line).length
          from by rw [hlineL, hL]; omega]
        rw [List.drop_left]
        rw [ih j' f (k + 1) (by simpa using hj) (by simp at hfuel; omega)
          hwfrt]
        rfl

lemma linesWithMissing_length (mode : ModeDescriptor) (width : ℕ) :
    ∀ (r : List (List (List ℤ))) (j k : ℕ), j < r.length →
      (linesWithMissing mode width k j r).length = r.length := by
  intro r
  induction r with
  | nil => intro j k hj; simp at hj
  | cons line rt ih =>
    intro j k hj
    cases j with
    | zero =>
      show (completedLines (k + 1) rt).length + 1 = rt.length + 1
      rw [completedLines_length]
    | succ j' =>
      show (linesWithMissing mode width (k + 1) j' rt).length + 1 =
        rt.length + 1
      rw [ih j' (k + 1) (by simpa using hj)]

lemma linesWithMissing_count (mode : ModeDescriptor) (width : ℕ) :
    ∀ (r : List (List (List ℤ))) (j k : ℕ), j < r.length →
      (linesWithMissing mode width k j r).countP
        (fun l => l.completeness == Completeness.missing) = 1 := by
  intro r
  induction r with
  | nil => intro j k hj; simp at hj
  | cons line rt ih =>
    intro j k hj
    cases j with
    | zero =>
      show (missingLine mode width k :: completedLines (k + 1) rt).countP
        (fun l => l.completeness == Completeness.missing) = 1
      rw [List.countP_cons_of_pos _ _ (by rfl)]
      have hz : (completedLines (k + 1) rt).countP
          (fun l => l.completeness == Completeness.missing) = 0 := by
        rw [List.countP_eq_zero]
        intro l hl
        rw [completedLines_complete (k + 1) rt l hl]
        simp
      omega
    | succ j' =>
      show ((⟨k, line, Completeness.complete⟩ : ScanLine) ::
          linesWithMissing mode width (k + 1) j' rt).countP
        (fun l => l.completeness == Completeness.missing) = 1
      rw [List.countP_cons_of_neg _ _ (by simp)]
      exact ih j' (k + 1) (by simpa using hj)

lemma linesWithMissing_complete (mode : ModeDescriptor) (width : ℕ) :
    ∀ (r : List (List (List ℤ))) (j k : ℕ) (l : ScanLine),
      l ∈ linesWithMissing mode width k j r →
      l.completeness ≠ Completeness.missing →
      l.completeness = Completeness.complete := by
  intro r
  induction r with
  | nil =>
    intro j k l hl
    have h0 : linesWithMissing mode width k j [] = [] := by
      cases j <;> rfl
    rw [h0] at hl
    cases hl
  | cons line rt ih =>
    intro j k l hl hne
    cases j with
    | zero =>
      rcases List.mem_cons.mp hl with rfl | hl'
      · exact absurd rfl hne
      · exact completedLines_complete (k + 1) rt l hl'
    | succ j' =>
      rcases List.mem_cons.mp hl with rfl | hl'
      · rfl
      · exact ih j' (k + 1) l hl' hne

lemma encodeSignalMissing_length (nc width spp syncDur : ℕ) (b w : ℚ) :
    ∀ (r : List (List (List ℤ))) (j : ℕ), j < r.length →
      WfRaster nc width r →
      (encodeSignalMissing (mkMode nc width spp syncDur b w) spp j r).length
        = r.length * (syncDur + nc * (width * spp)) := by
  intro r
  induction r with
  | nil => intro j hj; simp at hj
  | cons line rt ih =>
    intro j hj hwf
    have hwfline := hwf line (List.mem_cons_self line rt)
    have hwfrt : WfRaster nc width rt :=
      fun l hl => hwf l (List.mem_cons_of_mem line hl)
    cases j with
    | zero =>
      show (encodeLineNoSync (mkMode nc width spp syncDur b w) spp line ++
        encodeSignal (mkMode nc width spp syncDur b w) spp rt).length = _
      rw [List.length_append,
        encodeLineNoSync_length (mkMode nc width spp syncDur b w) spp width
          line (fun row hrow => (hwfline.2 row hrow).1), hwfline.1,
        encodeSignal_length nc width spp syncDur b w rt hwfrt]
      rw [List.length_cons,
        show (mkMode nc width spp syncDur b w).syncPulseDurationSamples =
          syncDur from rfl]
      ring
    | succ j' =>
      show (encodeLine (mkMode nc width spp syncDur b w) spp line ++
        encodeSignalMissing (mkMode nc width spp syncDur b w) spp j'
          rt).length = _
      rw [List.length_append,
        encodeLine_length (mkMode nc width spp syncDur b w) spp width line
          (fun row hrow => (hwfline.2 row hrow).1), hwfline.1,
        ih j' (by simpa using hj) hwfrt]
      rw [List.length_cons,
        show (mkMode nc width spp syncDur b w).syncPulseDurationSamples =
          syncDur from rfl]
      ring

end SSTV

/-- **C5.** For every well-formed raster encoded with exactly one line's
sync pulse deleted, decoding yields a frame with exactly one `Missing` scan
line, every other scan line `Complete`, and the same number of lines (frame
height) as decoding the unmodified signal. -/
theorem C5_missing_sync_recovery (nc width spp syncDur : ℕ) (b w : ℚ)
    (j : ℕ) (r : List (List (List ℤ)))
    (hnc : 0 < nc) (hw : 0 < width) (hsp : 0 < spp) (hsd : 0 < syncDur)
    (hb : 1250 < b) (hbw : b < w) (hj : j < r.length)
    (hwf : SSTV.WfRaster nc width r) :
    ((SSTV.decodeFrameLines (SSTV.mkMode nc width spp syncDur b w) width
        (SSTV.encodeSignalMissing (SSTV.mkMode nc width spp syncDur b w) spp
          j r)).countP
      (fun l => l.completeness == SSTV.Completeness.missing) = 1) ∧
    (∀ l ∈ SSTV.decodeFrameLines (SSTV.mkMode nc width spp syncDur b w) width
        (SSTV.encodeSignalMissing (SSTV.mkMode nc width spp syncDur b w) spp
          j r),
      l.completeness ≠ SSTV.Completeness.missing →
      l.completeness = SSTV.Completeness.complete) ∧
    (SSTV.decodeFrameLines (SSTV.mkMode nc width spp syncDur b w) width
        (SSTV.encodeSignalMissing (SSTV.mkMode nc width spp syncDur b w) spp
          j r)).length =
      (SSTV.decodeFrameLines (SSTV.mkMode nc width spp syncDur b w) width
        (SSTV.encodeSignal (SSTV.mkMode nc width spp syncDur b w) spp
          r)).length := by
  have hfuelM : r.length ≤
      (SSTV.encodeSignalMissing (SSTV.mkMode nc width spp syncDur b w) spp
        j r).length + 1 := by
    rw [SSTV.encodeSignalMissing_length nc width spp syncDur b w r j hj hwf]
    have : r.length * 1 ≤ r.length * (syncDur + nc * (width * spp)) :=
      Nat.mul_le_mul_left r.length (by omega)
    omega
  have hfuelC : r.length ≤
      (SSTV.encodeSignal (SSTV.mkMode nc width spp syncDur b w) spp
        r).length + 1 := by
    rw [SSTV.encodeSignal_length nc width spp syncDur b w r hwf]
    have : r.length * 1 ≤ r.length * (syncDur + nc * (width * spp)) :=
      Nat.mul_le_mul_left r.length (by omega)
    omega
  have hdm : SSTV.decodeFrameLines (SSTV.mkMode nc width spp syncDur b w)
      width (SSTV.encodeSignalMissing (SSTV.mkMode nc width spp syncDur b w)
        spp j r) =
      SSTV.linesWithMissing (SSTV.mkMode nc width spp syncDur b w) width 0
        j r := by
    unfold SSTV.decodeFrameLines
    exact SSTV.decodeLinesGo_missing nc width spp syncDur b w hw hsp hsd hb
      hbw r j _ 0 hj hfuelM hwf
  have hdc : SSTV.decodeFrameLines (SSTV.mkMode nc width spp syncDur b w)
      width (SSTV.encodeSignal (SSTV.mkMode nc width spp syncDur b w) spp
        r) = SSTV.completedLines 0 r := by
    unfold SSTV.decodeFrameLines
    exact SSTV.decodeLinesGo_encodeSignal nc width spp syncDur b w hw hsp hsd
      hbw r _ 0 hfuelC hwf
  rw [hdm, hdc]
  refine ⟨SSTV.linesWithMissing_count _ width r j 0 hj, ?_, ?_⟩
  · intro l hl hne
    exact SSTV.linesWithMissing_complete _ width r j 0 l hl hne
  · rw [SSTV.linesWithMissing_length _ width r j 0 hj,
      SSTV.completedLines_length]

/-- Witness for C5: deleting the second line's sync pulse in a 2-line,
3-channel, 1-pixel raster. -/
theorem C5_missing_sync_recovery_witness :
    ((SSTV.decodeFrameLines (SSTV.mkMode 3 1 1 1 1500 2300) 1
        (SSTV.encodeSignalMissing (SSTV.mkMode 3 1 1 1 1500 2300) 1 1
          [[[0], [10], [20]], [[30], [40], [50]]])).countP
      (fun l => l.completeness == SSTV.Completeness.missing) = 1) ∧
    (∀ l ∈ SSTV.decodeFrameLines (SSTV.mkMode 3 1 1 1 1500 2300) 1
        (SSTV.encodeSignalMissing (SSTV.mkMode 3 1 1 1 1500 2300) 1 1
          [[[0], [10], [20]], [[30], [40], [50]]]),
      l.completeness ≠ SSTV.Completeness.missing →
      l.completeness = SSTV.Completeness.complete) ∧
    (SSTV.decodeFrameLines (SSTV.mkMode 3 1 1 1 1500 2300) 1
        (SSTV.encodeSignalMissing (SSTV.mkMode 3 1 1 1 1500 2300) 1 1
          [[[0], [10], [20]], [[30], [40], [50]]])).length =
      (SSTV.decodeFrameLines (SSTV.mkMode 3 1 1 1 1500 2300) 1
        (SSTV.encodeSignal (SSTV.mkMode 3 1 1 1 1500 2300) 1
          [[[0], [10], [20]], [[30], [40], [50]]])).length :=
  C5_missing_sync_recovery 3 1 1 1 1500 2300 1
    [[[0], [10], [20]], [[30], [40], [50]]]
    (by norm_num) (by norm_num) (by norm_num) (by norm_num) (by norm_num)
    (by norm_num) (by norm_num) (by decide)

namespace SSTV

lemma decodePixel_bounds (b w : ℚ) (prev : ℤ) (window : List ℚ)
    (h0 : 0 ≤ prev) (h1 : prev ≤ 255) :
    0 ≤ decodePixel b w prev window ∧ decodePixel b w prev window ≤ 255 := by
  cases window with
  | nil => exact ⟨h0, h1⟩
  | cons a l => exact clampI_mem_Icc _

lemma decodeRowGo_bounds (b w : ℚ) (sig : List ℚ) (spp : ℕ) :
    ∀ (n start : ℕ) (prev : ℤ), 0 ≤ prev → prev ≤ 255 →
      ∀ v ∈ decodeRowGo b w sig spp start n prev, 0 ≤ v ∧ v ≤ 255 := by
  intro n
  induction n with
  | zero => intro start prev _ _ v hv; cases hv
  | succ m ih =>
    intro start prev h0 h1 v hv
    have hd := decodePixel_bounds b w prev (sliceQ sig start spp) h0 h1
    rcases List.mem_cons.mp hv with rfl | hv'
    · exact hd
    · exact ih (start + spp) _ hd.1 hd.2 v hv'

lemma decodeLinesGo_bounds (mode : ModeDescriptor) (width : ℕ) :
    ∀ (fuel : ℕ) (sig : List ℚ) (k : ℕ) (l : ScanLine),
      l ∈ decodeLinesGo mode width fuel sig k →
      ∀ row ∈ l.channelValues, ∀ v ∈ row, 0 ≤ v ∧ v ≤ 255 := by
  intro fuel
  induction fuel with
  | zero => intro sig k l hl; cases hl
  | succ f ih =>
    intro sig k l hl row hrow v hv
    by_cases hc : mode.lineDurationSamples ≤ sig.length
    · cases hA : acceptedSyncOffset mode sig with
      | some jj =>
        have hl' : l ∈ decodeLineAt mode width sig jj k ::
            decodeLinesGo mode width f
              (sig.drop (jj + mode.lineDurationSamples)) (k + 1) := by
          have hstep : decodeLinesGo mode width (f + 1) sig k =
              decodeLineAt mode width sig jj k ::
                decodeLinesGo mode width f
                  (sig.drop (jj + mode.lineDurationSamples)) (k + 1) := by
            show (if mode.lineDurationSamples ≤ sig.length then _ else []) = _
            rw [if_pos hc, hA]
          rwa [hstep] at hl
        rcases List.mem_cons.mp hl' with rfl | hrec
        · rcases List.mem_map.mp hrow with ⟨cs, _, rfl⟩
          exact decodeRowGo_bounds mode.blackFrequencyHz
            mode.whiteFrequencyHz sig (cs.durationSamples / width) width
            (jj + cs.offsetWithinLineSamples) 0 (by norm_num) (by norm_num)
            v hv
        · exact ih _ (k + 1) l hrec row hrow v hv
      | none =>
        have hl' : l ∈ missingLine mode width k ::
            decodeLinesGo mode width f
              (sig.drop mode.lineDurationSamples) (k + 1) := by
          have hstep : decodeLinesGo mode width (f + 1) sig k =
              missingLine mode width k ::
                decodeLinesGo mode width f
                  (sig.drop mode.lineDurationSamples) (k + 1) := by
            show (if mode.lineDurationSamples ≤ sig.length then _ else []) = _
            rw [if_pos hc, hA]
          rwa [hstep] at hl
        rcases List.mem_cons.mp hl' with rfl | hrec
        · rcases List.mem_map.mp hrow with ⟨cs, _, rfl⟩
          rw [List.eq_of_mem_replicate hv]
          norm_num
        · exact ih _ (k + 1) l hrec row hrow v hv
    · have hstep : decodeLinesGo mode width (f + 1) sig k = [] := by
        show (if mode.lineDurationSamples ≤ sig.length then _ else []) = []
        rw [if_neg hc]
      rw [hstep] at hl
      cases hl

lemma getD_int_bounds (l : List ℤ) (x : ℕ)
    (h : ∀ v ∈ l, 0 ≤ v ∧ v ≤ 255) :
    0 ≤ l.getD x 128 ∧ l.getD x 128 ≤ 255 := by
  by_cases hx : x < l.length
  · exact h _ (getD_mem_of_lt l 128 x hx)
  · rw [List.getD_eq_default _ _ (by omega)]
    norm_num

lemma finalizeRaster_bounds (fr : Frame)
    (h : ∀ l ∈ fr.lines, ∀ row ∈ l.channelValues, ∀ v ∈ row,
      0 ≤ v ∧ v ≤ 255) :
    ∀ prow ∈ finalizeRaster fr, ∀ p ∈ prow,
      (0 ≤ p.1 ∧ p.1 ≤ 255) ∧ (0 ≤ p.2.1 ∧ p.2.1 ≤ 255) ∧
      (0 ≤ p.2.2 ∧ p.2.2 ≤ 255) := by
  intro prow hprow p hp
  unfold finalizeRaster at hprow
  rcases List.mem_map.mp hprow with ⟨y, _, rfl⟩
  cases hf : findLine fr.lines y with
  | some l =>
    rw [hf] at hp
    have hmem : l ∈ fr.lines := by
      unfold findLine at hf
      exact List.mem_of_find?_eq_some hf
    have hrowvals : ∀ i x₀, 0 ≤ (l.channelValues.getD i []).getD x₀ 128 ∧
        (l.channelValues.getD i []).getD x₀ 128 ≤ 255 := by
      intro i x₀
      apply getD_int_bounds
      intro v hv
      by_cases hi : i < l.channelValues.length
      · exact h l hmem _ (getD_mem_of_lt l.channelValues [] i hi) v hv
      · rw [List.getD_eq_default _ _ (by omega)] at hv
        cases hv
    unfold rgbOfLine at hp
    rcases List.mem_map.mp hp with ⟨x, _, rfl⟩
    cases hcm : fr.mode.colorModel with
    | ycrcb =>
      exact ⟨clampI_mem_Icc _, clampI_mem_Icc _, clampI_mem_Icc _⟩
    | rgbSequential =>
      exact ⟨hrowvals 0 x, hrowvals 1 x, hrowvals 2 x⟩
  | none =>
    rw [hf] at hp
    rw [List.eq_of_mem_replicate hp]
    norm_num

lemma sessionFold_frames (steps : List SessionStep) :
    ∀ st : SessionState, (steps.foldl sessionStep st).framesStarted =
      st.framesStarted + steps.countP isVisHeader := by
  induction steps with
  | nil => intro st; simp
  | cons a t ih =>
    intro st
    cases a with
    | visHeader c =>
      rw [List.foldl_cons, ih, List.countP_cons_of_pos _ _ (by rfl)]
      show st.framesStarted + 1 + _ = _
      omega
    | fault e =>
      rw [List.foldl_cons, ih, List.countP_cons_of_neg _ _ (by simp [isVisHeader])]
      rfl
    | samples =>
      rw [List.foldl_cons, ih, List.countP_cons_of_neg _ _ (by simp [isVisHeader])]
      rfl

lemma sessionFold_faults_mono (steps : List SessionStep) :
    ∀ (st : SessionState) (x : DecodeError), x ∈ st.faults →
      x ∈ (steps.foldl sessionStep st).faults := by
  induction steps with
  | nil => intro st x hx; exact hx
  | cons a t ih =>
    intro st x hx
    rw [List.foldl_cons]
    apply ih
    cases a with
    | visHeader c => exact hx
    | fault e => exact List.mem_append_left _ hx
    | samples => exact hx

end SSTV

/-- **C4.** Channel intensity values are clamped into `[0, 255]` at every
producing operation: the frequency-to-intensity mapping, the BT.601 color
conversion, every channel value stored in any `ScanLine` produced by the
line decode loop, the clipped `corrected` array of `analyze_freq.py`, and
every pixel of a finalized raster built from in-range scan lines. -/
theorem C4_intensity_range_invariant :
    (∀ b w f : ℚ, 0 ≤ SSTV.intensity b w f ∧ SSTV.intensity b w f ≤ 255) ∧
    (∀ y cr cb : ℚ,
      (0 ≤ SSTV.bt601R y cr ∧ SSTV.bt601R y cr ≤ 255) ∧
      (0 ≤ SSTV.bt601G y cr cb ∧ SSTV.bt601G y cr cb ≤ 255) ∧
      (0 ≤ SSTV.bt601B y cb ∧ SSTV.bt601B y cb ≤ 255)) ∧
    (∀ (mode : SSTV.ModeDescriptor) (width fuel : ℕ) (sig : List ℚ) (k : ℕ),
      ∀ l ∈ SSTV.decodeLinesGo mode width fuel sig k,
        ∀ row ∈ l.channelValues, ∀ v ∈ row, 0 ≤ v ∧ v ≤ 255) ∧
    (∀ decArr expArr : List ℚ,
      ∀ y ∈ SSTV.corrected decArr expArr, 0 ≤ y ∧ y ≤ 255) ∧
    (∀ fr : SSTV.Frame,
      (∀ l ∈ fr.lines, ∀ row ∈ l.channelValues, ∀ v ∈ row,
        0 ≤ v ∧ v ≤ 255) →
      ∀ prow ∈ SSTV.finalizeRaster fr, ∀ p ∈ prow,
        (0 ≤ p.1 ∧ p.1 ≤ 255) ∧ (0 ≤ p.2.1 ∧ p.2.1 ≤ 255) ∧
        (0 ≤ p.2.2 ∧ p.2.2 ≤ 255)) := by
  refine ⟨?_, ?_, ?_, ?_, ?_⟩
  · intro b w f
    exact SSTV.clampI_mem_Icc _
  · intro y cr cb
    exact ⟨SSTV.clampI_mem_Icc _, SSTV.clampI_mem_Icc _,
      SSTV.clampI_mem_Icc _⟩
  · intro mode width fuel sig k l hl
    exact SSTV.decodeLinesGo_bounds mode width fuel sig k l hl
  · intro decArr expArr y hy
    unfold SSTV.corrected at hy
    rcases List.mem_map.mp hy with ⟨x, _, rfl⟩
    exact SSTV.clip255_mem_Icc _
  · exact SSTV.finalizeRaster_bounds

/-- Witness for C4: the finalize conjunct applied to a concrete one-line
frame whose stored values are in range, plus a concrete mapping instance. -/
theorem C4_intensity_range_invariant_witness :
    (0 ≤ SSTV.intensity 1500 2300 1900 ∧
      SSTV.intensity 1500 2300 1900 ≤ 255) ∧
    (∀ prow ∈ SSTV.finalizeRaster
        ⟨SSTV.mkMode 3 1 1 1 1500 2300,
          [⟨0, [[1], [2], [3]], SSTV.Completeness.complete⟩], 1, 1⟩,
      ∀ p ∈ prow,
        (0 ≤ p.1 ∧ p.1 ≤ 255) ∧ (0 ≤ p.2.1 ∧ p.2.1 ≤ 255) ∧
        (0 ≤ p.2.2 ∧ p.2.2 ≤ 255)) :=
  ⟨C4_intensity_range_invariant.1 1500 2300 1900,
    C4_intensity_range_invariant.2.2.2.2
      ⟨SSTV.mkMode 3 1 1 1 1500 2300,
        [⟨0, [[1], [2], [3]], SSTV.Completeness.complete⟩], 1, 1⟩
      (by decide)⟩

/-- **C6.** `finalize()` is a pure, idempotent transform over the
accumulated ScanLines: it leaves the Frame's ScanLines unchanged, calling
it twice on the same accumulated state yields the same raster as calling
it once, and the emitted raster has exactly `height` rows of `width` RGB
pixels. -/
theorem C6_finalize_pure_idempotent (f : SSTV.Frame) :
    (SSTV.finalizeS f).1.lines = f.lines ∧
    (SSTV.finalizeS ((SSTV.finalizeS f).1)).2 = (SSTV.finalizeS f).2 ∧
    (SSTV.finalizeRaster f).length = f.height ∧
    (∀ row ∈ SSTV.finalizeRaster f, row.length = f.width) := by
  refine ⟨rfl, rfl, ?_, ?_⟩
  · unfold SSTV.finalizeRaster
    rw [List.length_map, List.length_range]
  · intro row hrow
    unfold SSTV.finalizeRaster at hrow
    rcases List.mem_map.mp hrow with ⟨y, _, rfl⟩
    cases hf : SSTV.findLine f.lines y with
    | some l =>
      show (SSTV.rgbOfLine f.mode.colorModel f.width l).length = f.width
      unfold SSTV.rgbOfLine
      rw [List.length_map, List.length_range]
    | none =>
      show (List.replicate f.width ((128, 128, 128) : ℤ × ℤ × ℤ)).length =
        f.width
      exact List.length_replicate _ _

/-- **C7.** Each of the four decode errors is non-fatal: inserting any of
them into a session's input stream changes neither the frames-started
count contributed by the rest of the stream nor the session's ability to
process it (the fault is merely recorded), and the session fails fatally
with `NoSignalDetected` exactly when the stream is exhausted with zero
frames ever started (equivalently, when it contains no VIS header). -/
theorem C7_error_policy (steps pre post : List SSTV.SessionStep)
    (e : SSTV.DecodeError) :
    (SSTV.sessionOutcome steps = SSTV.SessionOutcome.noSignalDetected ↔
      (SSTV.sessionRun steps).framesStarted = 0) ∧
    ((SSTV.sessionRun steps).framesStarted =
      steps.countP SSTV.isVisHeader) ∧
    ((SSTV.sessionRun (pre ++ SSTV.SessionStep.fault e :: post)).framesStarted
      = (SSTV.sessionRun (pre ++ post)).framesStarted) ∧
    e ∈ (SSTV.sessionRun (pre ++ SSTV.SessionStep.fault e :: post)).faults := by
  refine ⟨?_, ?_, ?_, ?_⟩
  · unfold SSTV.sessionOutcome
    by_cases h : (SSTV.sessionRun steps).framesStarted = 0
    · rw [if_pos h]
      simp [h]
    · rw [if_neg h]
      simp [h]
  · unfold SSTV.sessionRun
    rw [SSTV.sessionFold_frames]
    show 0 + List.countP SSTV.isVisHeader steps =
      List.countP SSTV.isVisHeader steps
    omega
  · unfold SSTV.sessionRun
    rw [SSTV.sessionFold_frames, SSTV.sessionFold_frames,
      List.countP_append, List.countP_append,
      List.countP_cons_of_neg _ _ (by simp [SSTV.isVisHeader])]
  · unfold SSTV.sessionRun
    rw [List.foldl_append, List.foldl_cons]
    apply SSTV.sessionFold_faults_mono
    exact List.mem_append_right _ (List.mem_singleton.mpr rfl)
